import Mathlib

/-!
# Verification of the finnegans-chatbots-api core

A shallow embedding, in Lean 4, of the core logic of the conversational
flow engine (flow executor, flow-definition sanitizer, broadcast
reconciler, outbound message builder, contact resolver and webhook
verification), together with theorems settling the specification claims.

JavaScript runtime values that flow through the code (session contexts,
flow definition blobs, Express query values) are modelled by the `Js`
inductive type below: a JSON tree extended with an `undef` constructor,
since `undefined` is a first-class value in the source (optional edge
handles, absent object fields).  Numbers are modelled as integers: the
definitions under scrutiny never perform fractional arithmetic, and the
claims do not hinge on floating-point behaviour.  Host functions with no
internal logic of their own (`JSON.parse`, `fetch`, `new Function`
evaluation) are supplied as parameters, exactly as the source treats them
as opaque effects.
-/

namespace Chatbots

instance {ε α : Type} [DecidableEq ε] [DecidableEq α] :
    DecidableEq (Except ε α) := fun a b =>
  match a, b with
  | .error e, .error f =>
      if h : e = f then isTrue (by rw [h])
      else isFalse (by intro hc; cases hc; exact h rfl)
  | .ok x, .ok y =>
      if h : x = y then isTrue (by rw [h])
      else isFalse (by intro hc; cases hc; exact h rfl)
  | .error _, .ok _ => isFalse (by intro hc; cases hc)
  | .ok _, .error _ => isFalse (by intro hc; cases hc)

/-- A JavaScript runtime value: the JSON constructors plus `undefined`.
Objects are insertion-ordered association lists, as in V8; property lookup
takes the first binding with the requested key. -/
inductive Js where
  | undef : Js
  | null : Js
  | bool (b : Bool) : Js
  | num (n : Int) : Js
  | str (s : String) : Js
  | arr (elems : List Js) : Js
  | obj (fields : List (String × Js)) : Js
  deriving Inhabited

namespace Js

/-- Property lookup on an object field list (first binding wins). -/
def lookup (fields : List (String × Js)) (key : String) : Option Js :=
  match fields.find? (fun f => f.1 = key) with
  | some f => some f.2
  | none => none

/-- `v == null` in JavaScript: true for both `null` and `undefined`
(this is also what the `??` nullish-coalescing operator tests). -/
def isNullish : Js → Bool
  | .undef => true
  | .null => true
  | _ => false

/-- `isPlainObject` from `flow-schema.ts`: a value of type object that is
neither `null` nor an array. -/
def isPlainObject : Js → Bool
  | .obj _ => true
  | _ => false

end Js

/-! ## Broadcast reconciler (`src/lib/meta.ts`)

`adjustBroadcastAggregates` receives the recipient's previous status and
the next canonical status and decides which aggregate update (if any) to
issue on the parent broadcast.  The database write itself is an atomic
increment/decrement; the model returns the pair of deltas that the issued
update applies, or `none` when no update is issued at all. -/

/-- `BROADCAST_SUCCESS_STATUSES` from `meta.ts`. -/
def BROADCAST_SUCCESS_STATUSES : List String := ["Sent", "Delivered", "Read"]

/-- `BROADCAST_FAILURE_STATUSES` from `meta.ts`. -/
def BROADCAST_FAILURE_STATUSES : List String := ["Failed"]

/-- `adjustBroadcastAggregates(broadcastId, previousStatus, nextStatus)`:
the aggregate update issued on the broadcast, as a pair
`(successDelta, failureDelta)`, or `none` when the function returns
without updating.  `none` models both early returns (`!nextStatus`,
`previousStatus === nextStatus`) and the both-deltas-zero return. -/
def adjustBroadcastAggregates (previousStatus nextStatus : Option String) :
    Option (Int × Int) :=
  if nextStatus.isNone ∨ previousStatus = nextStatus then
    none
  else
    let next := nextStatus.getD ""
    let prevSuccess : Bool := match previousStatus with
      | some p => BROADCAST_SUCCESS_STATUSES.contains p
      | none => false
    let nextSuccess : Bool := BROADCAST_SUCCESS_STATUSES.contains next
    let prevFailure : Bool := match previousStatus with
      | some p => BROADCAST_FAILURE_STATUSES.contains p
      | none => false
    let nextFailure : Bool := BROADCAST_FAILURE_STATUSES.contains next
    let successDelta : Int :=
      if nextSuccess ∧ ¬prevSuccess then 1
      else if ¬nextSuccess ∧ prevSuccess then -1
      else 0
    let failureDelta : Int :=
      if nextFailure ∧ ¬prevFailure then 1
      else if ¬nextFailure ∧ prevFailure then -1
      else 0
    if successDelta = 0 ∧ failureDelta = 0 then none
    else some (successDelta, failureDelta)

/-- Membership of an optional status in a status set, as the claim reads
it (`null` belongs to no set). -/
def optStatusMem (status : Option String) (set : List String) : Prop :=
  match status with
  | some s => s ∈ set
  | none => False

instance (status : Option String) (set : List String) :
    Decidable (optStatusMem status set) := by
  cases status with
  | none => exact isFalse (fun h => h)
  | some s => exact (inferInstance : Decidable (s ∈ set))

/-- The success-counter delta exactly as the claim words it: `+1` if the
next status is in the success set and the previous is not, `-1` if the
previous is in the set and the next is not, `0` otherwise. -/
def claimSuccessDelta (p n : Option String) : Int :=
  if optStatusMem n BROADCAST_SUCCESS_STATUSES ∧
      ¬optStatusMem p BROADCAST_SUCCESS_STATUSES then 1
  else if optStatusMem p BROADCAST_SUCCESS_STATUSES ∧
      ¬optStatusMem n BROADCAST_SUCCESS_STATUSES then -1
  else 0

/-- The failure-counter delta exactly as the claim words it. -/
def claimFailureDelta (p n : Option String) : Int :=
  if optStatusMem n BROADCAST_FAILURE_STATUSES ∧
      ¬optStatusMem p BROADCAST_FAILURE_STATUSES then 1
  else if optStatusMem p BROADCAST_FAILURE_STATUSES ∧
      ¬optStatusMem n BROADCAST_FAILURE_STATUSES then -1
  else 0

/-- C2, counterexample.  Take previous status `Sent` and next canonical
status `null` (a Meta status callback whose `status` field is absent maps
to `null`).  The claim's delta rule makes the success delta `-1`
(the previous status leaves the success set), which is non-zero, yet
`adjustBroadcastAggregates` issues no aggregate update at all; the
claim's assertion that the deltas vanish whenever `n` is null is false. -/
theorem adjustBroadcastAggregates_claim_counterexample :
    claimSuccessDelta (some "Sent") none = -1 ∧
      claimSuccessDelta (some "Sent") none ≠ 0 ∧
      adjustBroadcastAggregates (some "Sent") none = none := by
  refine ⟨by decide, by decide, ?_⟩
  simp [adjustBroadcastAggregates]

/-- C2, amended.  The success set is `{Sent, Delivered, Read}` and the
failure set is `{Failed}`; the claim's delta rule governs the update
*only when the next status is non-null and differs from the previous
one*: in that case the update carries exactly the claimed deltas and is
skipped iff both are zero, while a null or unchanged next status issues
no update regardless of the deltas the rule would assign. -/
theorem adjustBroadcastAggregates_spec (p n : Option String) :
    adjustBroadcastAggregates p n =
      if n.isNone ∨ p = n then none
      else if claimSuccessDelta p n = 0 ∧ claimFailureDelta p n = 0 then none
      else some (claimSuccessDelta p n, claimFailureDelta p n) := by
  cases n with
  | none => simp [adjustBroadcastAggregates]
  | some x =>
    cases p with
    | none =>
      by_cases hxS : x ∈ BROADCAST_SUCCESS_STATUSES <;>
        by_cases hxF : x ∈ BROADCAST_FAILURE_STATUSES <;>
          simp_all [adjustBroadcastAggregates, claimSuccessDelta,
            claimFailureDelta, optStatusMem, List.contains]
    | some y =>
      by_cases hxy : y = x
      · subst hxy
        simp [adjustBroadcastAggregates, claimSuccessDelta,
          claimFailureDelta, optStatusMem]
      · by_cases hxS : x ∈ BROADCAST_SUCCESS_STATUSES <;>
          by_cases hyS : y ∈ BROADCAST_SUCCESS_STATUSES <;>
            by_cases hxF : x ∈ BROADCAST_FAILURE_STATUSES <;>
              by_cases hyF : y ∈ BROADCAST_FAILURE_STATUSES <;>
                simp_all [adjustBroadcastAggregates, claimSuccessDelta,
                  claimFailureDelta, optStatusMem, List.contains,
                  Option.some.injEq]

/-! ## Contact resolution (`src/lib/meta.ts`)

`getOrCreateContactForUser` first computes, purely, the canonical phone
and the set of phone spellings to search the store for; only then does it
touch the database.  The model captures that pure prefix: the search list
(a JavaScript `Set` is insertion-ordered, so a deduplicating list), the
canonical phone, and the `Unable to resolve contact phone number` error
thrown when the search list is empty. -/

/-- `String.prototype.trim`: drop leading and trailing whitespace. -/
def jsTrim (s : String) : String :=
  String.mk (((s.data.dropWhile Char.isWhitespace).reverse.dropWhile
    Char.isWhitespace).reverse)

/-- `normalizePhone` from `meta.ts`: strip every non-digit character;
`null` when nothing remains (or when the input itself is empty). -/
def normalizePhone (value : String) : Option String :=
  if value = "" then none
  else
    let digits := String.mk (value.data.filter Char.isDigit)
    if digits = "" then none else some digits

theorem normalizePhone_empty : normalizePhone "" = none := rfl

theorem normalizePhone_ne_empty {t d : String}
    (h : normalizePhone t = some d) : t ≠ "" ∧ d ≠ "" := by
  unfold normalizePhone at h
  by_cases h0 : t = ""
  · simp [h0] at h
  · simp only [h0, if_false] at h
    by_cases h1 : String.mk (t.data.filter Char.isDigit) = ""
    · simp [h1] at h
    · simp only [h1, if_false, Option.some.injEq] at h
      exact ⟨h0, h ▸ h1⟩

/-- Insertion-ordered `Set.add`. -/
def setAdd (set : List String) (value : String) : List String :=
  if value ∈ set then set else set ++ [value]

/-- The result of the pure prefix of `getOrCreateContactForUser`. -/
structure ContactPlan where
  canonicalPhone : String
  searchList : List String
  deriving Repr, DecidableEq

/-- The pure prefix of `getOrCreateContactForUser(userId, phone, options)`:
trim the primary phone, normalize it with a fallback to the raw trimmed
form, accumulate the search set (canonical and raw forms of the primary
and of every alternate), and fail when the search list is empty. -/
def contactResolutionPlan (phone : String) (alternatePhones : List String) :
    Except String ContactPlan :=
  let trimmedPrimary := jsTrim phone
  let normalizedPrimary := (normalizePhone trimmedPrimary).getD trimmedPrimary
  let searchPhones₀ : List String :=
    if normalizedPrimary ≠ "" then setAdd [] normalizedPrimary else []
  let searchPhones₁ :=
    if trimmedPrimary ≠ "" ∧ trimmedPrimary ≠ normalizedPrimary then
      setAdd searchPhones₀ trimmedPrimary
    else searchPhones₀
  let searchPhones := alternatePhones.foldl (fun acc candidate =>
    let trimmedCandidate := jsTrim candidate
    if trimmedCandidate = "" then acc
    else
      let normalizedCandidate :=
        (normalizePhone trimmedCandidate).getD trimmedCandidate
      let acc := setAdd acc normalizedCandidate
      if normalizedCandidate ≠ trimmedCandidate then setAdd acc trimmedCandidate
      else acc) searchPhones₁
  let searchList := searchPhones.filter (fun value => value ≠ "")
  if searchList.isEmpty then
    Except.error "Unable to resolve contact phone number"
  else
    let canonicalPhone :=
      if normalizedPrimary ≠ "" then normalizedPrimary else searchList.headD ""
    Except.ok ⟨canonicalPhone, searchList⟩

/-- C5, counterexample.  The input `"abc"` contains no digit characters,
so its digits-only normalization is empty — the claim demands an error —
yet `getOrCreateContactForUser` falls back to the raw trimmed input and
happily proceeds with canonical phone `"abc"`. -/
theorem contactResolutionPlan_claim_counterexample :
    normalizePhone "abc" = none ∧
      contactResolutionPlan "abc" [] = Except.ok ⟨"abc", ["abc"]⟩ := by
  constructor
  · decide
  · decide

/-- C5, amended.  With no alternate phones: when the trimmed input
contains a digit the canonical phone is its digits-only normalization;
when it contains no digit but is non-empty the canonical phone falls back
to the trimmed input itself; only a trimmed-empty input makes the
operation fail with an error. -/
theorem contactResolutionPlan_spec (phone : String) :
    contactResolutionPlan phone [] =
      match normalizePhone (jsTrim phone) with
      | some digits => Except.ok ⟨digits,
          if jsTrim phone = digits then [digits] else [digits, jsTrim phone]⟩
      | none =>
          if jsTrim phone = "" then
            Except.error "Unable to resolve contact phone number"
          else Except.ok ⟨jsTrim phone, [jsTrim phone]⟩ := by
  unfold contactResolutionPlan
  generalize jsTrim phone = t
  cases hnorm : normalizePhone t with
  | none =>
    by_cases hempty : t = ""
    · simp [hnorm, hempty, setAdd, normalizePhone_empty]
    · simp [hnorm, hempty, setAdd, List.filter]
  | some digits =>
    obtain ⟨ht, hdigits⟩ := normalizePhone_ne_empty hnorm
    by_cases heq : t = digits
    · subst heq
      simp [hnorm, hdigits, setAdd, List.filter]
    · simp [hnorm, heq, ht, hdigits, setAdd, List.filter, Ne.symm heq]

/-! ## Webhook verification (`src/index.ts`)

`GET /meta/webhook` compares the supplied `hub.*` query values against
the configured verify token.  Query values are arbitrary parsed values
(string, array, object or absent), so they are modelled as `Js`. -/

/-- JavaScript strict equality `v === s` between an arbitrary value and a
string. -/
def jsEqString (v : Js) (s : String) : Bool :=
  match v with
  | .str t => t = s
  | _ => false

theorem jsEqString_true_iff {v : Js} {s : String} :
    jsEqString v s = true ↔ v = Js.str s := by
  cases v <;> simp [jsEqString]

/-- The `GET /meta/webhook` handler from `index.ts`: result is
`(HTTP status, body)`.  `sendStatus(403)` sends the standard reason
phrase `"Forbidden"` as its body. -/
def metaWebhookGet (verifyToken : String) (mode token challenge : Js) :
    Nat × String :=
  match challenge, jsEqString mode "subscribe" with
  | .str c, true =>
      if verifyToken = "" ∨ jsEqString token verifyToken = false then
        (403, "Forbidden")
      else (200, c)
  | _, _ => (400, "Invalid verification request")

/-- C9, counterexample.  The supplied `hub.verify_token` equals the
configured token `"tok"` and `hub.challenge` is the string `"c"`, yet
because `hub.mode` is `"hello"` rather than `"subscribe"` the handler
answers 400 — the claim's promised 200-with-challenge does not hold. -/
theorem metaWebhookGet_claim_counterexample :
    metaWebhookGet "tok" (Js.str "hello") (Js.str "tok") (Js.str "c") =
        (400, "Invalid verification request") ∧
      (metaWebhookGet "tok" (Js.str "hello") (Js.str "tok")
        (Js.str "c")).1 ≠ 200 := by
  constructor <;> decide

/-- C9, amended.  The handler answers 200 with the challenge as body
exactly when `hub.mode` is `"subscribe"`, the challenge is a string, the
configured token is non-empty and the supplied token equals it; every
other request is answered 403 or 400. -/
theorem metaWebhookGet_spec (verifyToken : String) (mode token challenge : Js) :
    (∀ c : String, mode = Js.str "subscribe" → challenge = Js.str c →
      verifyToken ≠ "" → token = Js.str verifyToken →
      metaWebhookGet verifyToken mode token challenge = (200, c)) ∧
    ((metaWebhookGet verifyToken mode token challenge).1 = 200 →
      mode = Js.str "subscribe" ∧ verifyToken ≠ "" ∧
        token = Js.str verifyToken ∧
        challenge = Js.str (metaWebhookGet verifyToken mode token challenge).2) ∧
    ((metaWebhookGet verifyToken mode token challenge).1 = 200 ∨
      (metaWebhookGet verifyToken mode token challenge).1 = 403 ∨
      (metaWebhookGet verifyToken mode token challenge).1 = 400) := by
  refine ⟨?_, ?_, ?_⟩
  · intro c hmode hch hvt htok
    subst hmode; subst hch; subst htok
    simp [metaWebhookGet, jsEqString, hvt]
  · intro h200
    cases challenge <;>
      cases hmode : jsEqString mode "subscribe" <;>
        simp_all [metaWebhookGet]
    by_cases hcond : verifyToken = "" ∨ jsEqString token verifyToken = false
    · simp [hcond] at h200
    · push_neg at hcond
      obtain ⟨hvt, htokb⟩ := hcond
      have htok : token = Js.str verifyToken := by
        refine jsEqString_true_iff.mp ?_
        cases h : jsEqString token verifyToken
        · exact absurd h htokb
        · rfl
      exact ⟨jsEqString_true_iff.mp hmode, hvt, htok, by simp [hvt, htokb]⟩
  · cases challenge <;>
      cases hmode : jsEqString mode "subscribe" <;>
        simp [metaWebhookGet, hmode] <;>
      by_cases hcond : verifyToken = "" ∨ jsEqString token verifyToken = false <;>
        simp [hcond]

/-- C9, witness: a subscribe request with the matching token `"tok"` and
challenge `"ch"` is answered 200 with body `"ch"`. -/
theorem metaWebhookGet_spec_witness :
    metaWebhookGet "tok" (Js.str "subscribe") (Js.str "tok") (Js.str "ch") =
      (200, "ch") :=
  (metaWebhookGet_spec "tok" (Js.str "subscribe") (Js.str "tok")
    (Js.str "ch")).1 "ch" rfl rfl (by decide) rfl

/-! ## Outbound message builder: allow-list recovery (`src/lib/meta.ts`)

`sendMessage` POSTs the payload to the Graph API; on a 400 response with
Meta error code 131030 ("recipient not in allow list") and no prior
enrollment attempt on this send, it calls `addRecipientToAllowList` and,
if that succeeds, retries itself exactly once with the
`allowListAttempted=true` sentinel.  The Graph responses are external
inputs, supplied by the environment; the response to the retry may differ
from the first response, so responses are indexed by the sentinel value
the call carries. -/

/-- The part of a Graph `/messages` response that drives the allow-list
recovery logic. -/
structure GraphResponse where
  ok : Bool
  status : Nat
  errorCode : Option Int
  deriving Repr, DecidableEq

/-- External inputs of one `sendMessage` execution. -/
structure SendEnv where
  /-- Response to the send request, indexed by the `allowListAttempted`
  sentinel the requesting call carries. -/
  sendResp : Bool → GraphResponse
  /-- Whether `addRecipientToAllowList` succeeds. -/
  enrollOk : Bool

/-- `RECIPIENT_NOT_ALLOWED_ERROR_CODE` from `meta.ts`. -/
def RECIPIENT_NOT_ALLOWED_ERROR_CODE : Int := 131030

/-- One externally visible call made by `sendMessage`. -/
inductive SendEvent where
  | sendCall (allowListAttempted : Bool)
  | enrollCall
  deriving Repr, DecidableEq

/-- `sendMessage(userId, to, message, {allowListAttempted})`, reduced to
its call structure: the ordered list of external calls it performs and
whether it returns success.  Follows the source: a non-ok response with
status 400, error code 131030 and an unset sentinel triggers enrollment;
a successful enrollment re-enters `sendMessage` with
`allowListAttempted=true`; every other failure returns immediately. -/
def sendMessageModel (env : SendEnv) (allowListAttempted : Bool) :
    List SendEvent × Bool :=
  let resp := env.sendResp allowListAttempted
  if resp.ok then ([.sendCall allowListAttempted], true)
  else if resp.status = 400 ∧
      resp.errorCode = some RECIPIENT_NOT_ALLOWED_ERROR_CODE ∧
      allowListAttempted = false then
    if env.enrollOk then
      let rest := sendMessageModel env true
      (.sendCall allowListAttempted :: .enrollCall :: rest.1, rest.2)
    else ([.sendCall allowListAttempted, .enrollCall], false)
  else ([.sendCall allowListAttempted], false)
  termination_by if allowListAttempted then 0 else 1
  decreasing_by simp_all

/-- The condition under which `sendMessage` triggers allow-list
enrollment: the first send (sentinel unset) fails with status 400 and
Meta error code 131030. -/
def allowListTriggered (env : SendEnv) : Prop :=
  (env.sendResp false).ok = false ∧ (env.sendResp false).status = 400 ∧
    (env.sendResp false).errorCode = some RECIPIENT_NOT_ALLOWED_ERROR_CODE

/-- C4: in every execution of `sendMessage` (over all possible Graph
responses), the only possible call traces are: a single send; a send
followed by a failed enrollment; or a send, a successful enrollment, and
exactly one retry carrying `allowListAttempted=true`.  Enrollment occurs
(exactly once) iff the first send was answered 400 with error code
131030, and the retry occurs iff that enrollment succeeded — so no
execution performs a second enrollment or a second retry. -/
theorem sendMessage_allowlist_once (env : SendEnv) :
    ((sendMessageModel env false).1 = [.sendCall false] ∨
      (sendMessageModel env false).1 = [.sendCall false, .enrollCall] ∨
      (sendMessageModel env false).1 =
        [.sendCall false, .enrollCall, .sendCall true]) ∧
    (SendEvent.enrollCall ∈ (sendMessageModel env false).1 ↔
      allowListTriggered env) ∧
    ((sendMessageModel env false).1 =
        [.sendCall false, .enrollCall, .sendCall true] ↔
      allowListTriggered env ∧ env.enrollOk = true) ∧
    (¬allowListTriggered env →
      (sendMessageModel env false).1 = [.sendCall false]) := by
  rw [sendMessageModel]
  rw [sendMessageModel]
  by_cases hok : (env.sendResp false).ok <;>
    by_cases hst : (env.sendResp false).status = 400 <;>
      by_cases hcode : (env.sendResp false).errorCode =
        some RECIPIENT_NOT_ALLOWED_ERROR_CODE <;>
        by_cases hen : env.enrollOk <;>
          by_cases hok2 : (env.sendResp true).ok <;>
            simp_all [allowListTriggered]

/-! ## Flow executor: context history bookkeeping (`src/lib/flow-executor.ts`)

`pushHistory` appends an entry to `context._meta.history` and, when the
length exceeds `HISTORY_LIMIT`, splices the excess off the front.
`recordInbound` pushes one history entry and appends to
`context.inputHistory` with the same push-then-truncate logic;
`recordOutbound` pushes one history entry and leaves `inputHistory`
untouched.  Entry contents never influence the truncation, so entries are
kept abstract. -/

/-- `HISTORY_LIMIT` from `flow-executor.ts`. -/
def HISTORY_LIMIT : Nat := 50

/-- The push-then-truncate step shared by `pushHistory` (for
`_meta.history`) and `recordInbound` (for `inputHistory`): append the
entry, then `splice(0, length - HISTORY_LIMIT)` when over the cap. -/
def pushHistory {α : Type} (entries : List α) (entry : α) : List α :=
  let h := entries ++ [entry]
  if h.length > HISTORY_LIMIT then h.drop (h.length - HISTORY_LIMIT) else h

/-- One recording operation performed by the executor: an inbound event
(`recordInbound`: one `_meta.history` entry plus one `inputHistory`
entry) or an outbound event (`recordOutbound`: one `_meta.history`
entry only). -/
inductive RecordOp (α : Type) where
  | inbound (historyEntry inputEntry : α)
  | outbound (historyEntry : α)

/-- Effect of one recording operation on the pair
`(_meta.history, inputHistory)`. -/
def applyRecordOp {α : Type} (s : List α × List α) :
    RecordOp α → List α × List α
  | .inbound e i => (pushHistory s.1 e, pushHistory s.2 i)
  | .outbound e => (pushHistory s.1 e, s.2)

/-- The context history state after a sequence of recording operations,
starting from a fresh session context (both lists empty). -/
def runRecordOps {α : Type} (ops : List (RecordOp α)) : List α × List α :=
  ops.foldl applyRecordOp ([], [])

/-- All `_meta.history` entries a sequence of operations pushes. -/
def opHistoryEntries {α : Type} (ops : List (RecordOp α)) : List α :=
  ops.map fun op =>
    match op with
    | .inbound e _ => e
    | .outbound e => e

/-- All `inputHistory` entries a sequence of operations pushes. -/
def opInputEntries {α : Type} (ops : List (RecordOp α)) : List α :=
  ops.filterMap fun op =>
    match op with
    | .inbound _ i => some i
    | .outbound _ => none

theorem pushHistory_eq_rtake {α : Type} (l : List α) (e : α) :
    pushHistory l e = (l ++ [e]).rtake HISTORY_LIMIT := by
  simp only [pushHistory, List.rtake]
  by_cases h : (l ++ [e]).length > HISTORY_LIMIT
  · rw [if_pos h]
  · rw [if_neg h]
    have h0 : (l ++ [e]).length - HISTORY_LIMIT = 0 := by omega
    rw [h0, List.drop_zero]

theorem length_rtake_le {α : Type} (n : Nat) (l : List α) :
    (l.rtake n).length ≤ n := by
  simp only [List.rtake, List.length_drop]
  omega

theorem rtake_append_rtake {α : Type} (n : Nat) (xs ys : List α) :
    ((xs.rtake n) ++ ys).rtake n = (xs ++ ys).rtake n := by
  have key : List.take n (ys.reverse ++ List.take n xs.reverse) =
      List.take n (ys.reverse ++ xs.reverse) := by
    rw [List.take_append_eq_append_take, List.take_append_eq_append_take,
      List.take_take, Nat.min_eq_left (Nat.sub_le n ys.reverse.length)]
  calc ((xs.rtake n) ++ ys).rtake n
      = (List.take n (((xs.rtake n) ++ ys).reverse)).reverse :=
        List.rtake_eq_reverse_take_reverse _ _
    _ = (List.take n (ys.reverse ++ List.take n xs.reverse)).reverse := by
        rw [List.reverse_append, List.rtake_eq_reverse_take_reverse,
          List.reverse_reverse]
        
    _ = (List.take n (ys.reverse ++ xs.reverse)).reverse := by rw [key]
    _ = (List.take n ((xs ++ ys).reverse)).reverse := by
        rw [List.reverse_append]
    _ = (xs ++ ys).rtake n := (List.rtake_eq_reverse_take_reverse _ _).symm

theorem foldl_recordOps_rtake {α : Type} (ops : List (RecordOp α)) :
    ∀ acc : List α × List α, acc.1.length ≤ HISTORY_LIMIT →
      acc.2.length ≤ HISTORY_LIMIT →
      ops.foldl applyRecordOp acc =
        ((acc.1 ++ opHistoryEntries ops).rtake HISTORY_LIMIT,
          (acc.2 ++ opInputEntries ops).rtake HISTORY_LIMIT) := by
  induction ops with
  | nil =>
    intro acc h1 h2
    simp only [List.foldl_nil, opHistoryEntries, opInputEntries,
      List.map_nil, List.filterMap_nil, List.append_nil]
    have e1 : acc.1.rtake HISTORY_LIMIT = acc.1 := by
      simp only [List.rtake]
      have : acc.1.length - HISTORY_LIMIT = 0 := by omega
      simp [this]
    have e2 : acc.2.rtake HISTORY_LIMIT = acc.2 := by
      simp only [List.rtake]
      have : acc.2.length - HISTORY_LIMIT = 0 := by omega
      simp [this]
    rw [e1, e2]
  | cons op ops ih =>
    intro acc h1 h2
    rw [List.foldl_cons]
    cases op with
    | inbound e i =>
      rw [ih (applyRecordOp acc (.inbound e i))
        (by simp [applyRecordOp, pushHistory_eq_rtake, length_rtake_le])
        (by simp [applyRecordOp, pushHistory_eq_rtake, length_rtake_le])]
      simp only [applyRecordOp, pushHistory_eq_rtake, opHistoryEntries,
        opInputEntries, List.map_cons, List.filterMap_cons]
      rw [rtake_append_rtake, rtake_append_rtake, List.append_assoc,
        List.append_assoc]
      simp [opHistoryEntries, opInputEntries]
    | outbound e =>
      rw [ih (applyRecordOp acc (.outbound e))
        (by simp [applyRecordOp, pushHistory_eq_rtake, length_rtake_le])
        (by simpa [applyRecordOp] using h2)]
      simp only [applyRecordOp, pushHistory_eq_rtake, opHistoryEntries,
        opInputEntries, List.map_cons, List.filterMap_cons]
      rw [rtake_append_rtake, List.append_assoc]
      simp [opHistoryEntries, opInputEntries]

/-- C8: after any sequence of inbound/outbound recording operations on a
fresh context, `_meta.history` and `inputHistory` are exactly the last
`HISTORY_LIMIT = 50` entries pushed into them (so neither ever exceeds
50 entries, and what is dropped is always the oldest prefix: each list
is a suffix of the full entry sequence). -/
theorem contextHistory_capped {α : Type} (ops : List (RecordOp α)) :
    (runRecordOps ops).1 = (opHistoryEntries ops).rtake HISTORY_LIMIT ∧
    (runRecordOps ops).2 = (opInputEntries ops).rtake HISTORY_LIMIT ∧
    (runRecordOps ops).1.length ≤ HISTORY_LIMIT ∧
    (runRecordOps ops).2.length ≤ HISTORY_LIMIT ∧
    (runRecordOps ops).1 <:+ opHistoryEntries ops ∧
    (runRecordOps ops).2 <:+ opInputEntries ops := by
  have h := foldl_recordOps_rtake ops ([], [])
    (by simp [HISTORY_LIMIT]) (by simp [HISTORY_LIMIT])
  simp only [List.nil_append] at h
  unfold runRecordOps
  rw [h]
  refine ⟨rfl, rfl, length_rtake_le _ _, length_rtake_le _ _, ?_, ?_⟩ <;>
    exact List.drop_suffix _ _

/-! ## Flow executor: restricted condition evaluator
(`src/lib/flow-executor.ts`)

`safeEvalBool` rejects an expression whenever the blocklist regex
`/[;{}]|process|global|window|document|require|import|\beval\b/` matches:
the three characters and six words are plain substring matches, `eval`
must appear with word boundaries on both sides (`\w = [A-Za-z0-9_]`).
Accepted expressions are handed to host evaluation (`new Function`),
an opaque effect supplied as a parameter that may itself throw. -/

/-- The `{` character (regex class `[;{}]`). -/
def lbraceChar : Char := Char.ofNat 123

/-- The `}` character (regex class `[;{}]`). -/
def rbraceChar : Char := Char.ofNat 125

/-- JavaScript `\w`: ASCII letters, digits and underscore. -/
def isWordChar (c : Char) : Bool := c.isAlphanum || c = '_'

/-- Does the list start with the given sequence? -/
def startsWithSeq : List Char → List Char → Bool
  | [], _ => true
  | _ :: _, [] => false
  | a :: as, b :: bs => a = b && startsWithSeq as bs

/-- Does the list contain the given sequence as a contiguous run? -/
def containsSeq (needle : List Char) : List Char → Bool
  | [] => needle.isEmpty
  | c :: rest => startsWithSeq needle (c :: rest) || containsSeq needle rest

/-- Is the first character (if any) outside `\w`?  This is the
word-boundary test on the right-hand side of `\beval\b`. -/
def boundaryAfter : List Char → Bool
  | [] => true
  | c :: _ => !isWordChar c

/-- Word-boundary test against the character preceding the current
position (`none` at the start of the string). -/
def boundaryBefore : Option Char → Bool
  | none => true
  | some p => !isWordChar p

/-- Does the list contain `eval` with word boundaries on both sides
(`\beval\b`), given the character just before the current position? -/
def containsEvalWord (prev : Option Char) : List Char → Bool
  | [] => false
  | c :: rest =>
      (startsWithSeq ['e', 'v', 'a', 'l'] (c :: rest) &&
        boundaryBefore prev && boundaryAfter ((c :: rest).drop 4)) ||
      containsEvalWord (some c) rest

/-- The blocklist test of `safeEvalBool`:
`/[;{}]|process|global|window|document|require|import|\beval\b/.test(expr)`. -/
def isUnsafeExpr (expr : String) : Bool :=
  let cs := expr.data
  cs.any (fun c => c = ';' || c = lbraceChar || c = rbraceChar) ||
  containsSeq "process".data cs ||
  containsSeq "global".data cs ||
  containsSeq "window".data cs ||
  containsSeq "document".data cs ||
  containsSeq "require".data cs ||
  containsSeq "import".data cs ||
  containsEvalWord none cs

/-- `safeEvalBool(expr, ctx)`: throw `Unsafe expression` when the
blocklist matches, otherwise evaluate via the host (`new Function`),
modelled by `evalFn`, which may itself throw (`Except.error`). -/
def safeEvalBool (evalFn : String → Except Unit Bool) (expr : String) :
    Except String Bool :=
  if isUnsafeExpr expr then Except.error "Unsafe expression"
  else
    match evalFn expr with
    | .ok b => Except.ok b
    | .error _ => Except.error "evaluation failed"

/-- The `condition` case of the executor's main loop: any throw from
`safeEvalBool` is caught and the result is `false`. -/
def conditionResult (evalFn : String → Except Unit Bool) (expr : String) :
    Bool :=
  match safeEvalBool evalFn expr with
  | .ok b => b
  | .error _ => false

/-- A sanitized edge handle: `string | null | undefined`. -/
inductive Handle where
  | undef : Handle
  | null : Handle
  | str (s : String) : Handle
  deriving Repr, DecidableEq

/-- A sanitized flow edge, as the executor indexes it. -/
structure FlowEdge where
  id : String
  source : String
  target : String
  sourceHandle : Handle := .undef
  targetHandle : Handle := .undef
  deriving Repr, DecidableEq

/-- `outgoingBySource.get(sourceId) ?? []`: the edges with this source,
in definition order, skipping edges with a falsy source or target. -/
def outgoingEdges (edges : List FlowEdge) (sourceId : String) :
    List FlowEdge :=
  edges.filter fun e => e.source ≠ "" ∧ e.target ≠ "" ∧ e.source = sourceId

/-- `chooseFirstEdge` from the executor. -/
def chooseFirstEdge (edges : List FlowEdge) (sourceId : String) :
    Option FlowEdge :=
  (outgoingEdges edges sourceId).head?

/-- `edgeForCondition` from the executor: the first outgoing edge whose
`sourceHandle` is the string `"true"`/`"false"` matching the result. -/
def edgeForCondition (edges : List FlowEdge) (sourceId : String)
    (res : Bool) : Option FlowEdge :=
  (outgoingEdges edges sourceId).find?
    (fun e => e.sourceHandle = Handle.str (if res then "true" else "false"))

/-- The expression contains one of the blocklisted tokens: `;`, `{`, `}`,
or one of the words `process`, `global`, `window`, `document`, `require`,
`import` as a substring, or the identifier `eval` delimited by word
boundaries. -/
def ContainsUnsafeToken (expr : String) : Prop :=
  (∃ a b, expr.data = a ++ [';'] ++ b) ∨
  (∃ a b, expr.data = a ++ [lbraceChar] ++ b) ∨
  (∃ a b, expr.data = a ++ [rbraceChar] ++ b) ∨
  (∃ w, w ∈ ["process", "global", "window", "document", "require",
      "import"] ∧ ∃ a b, expr.data = a ++ w.data ++ b) ∨
  (∃ a b, expr.data = a ++ "eval".data ++ b ∧
    (match a.getLast? with
      | none => True
      | some p => isWordChar p = false) ∧
    (match b.head? with
      | none => True
      | some c => isWordChar c = false))

theorem startsWithSeq_append (n b : List Char) :
    startsWithSeq n (n ++ b) = true := by
  induction n with
  | nil => rfl
  | cons c cs ih => simp [startsWithSeq, ih]

theorem containsSeq_append_self (needle b : List Char) (hne : needle ≠ []) :
    containsSeq needle (needle ++ b) = true := by
  cases needle with
  | nil => exact absurd rfl hne
  | cons c cs =>
    have h1 : (c :: cs) ++ b = c :: (cs ++ b) := rfl
    rw [h1]
    simp only [containsSeq]
    rw [← h1, startsWithSeq_append]
    simp

theorem containsSeq_of_append {needle hay a b : List Char}
    (h : hay = a ++ needle ++ b) (hne : needle ≠ []) :
    containsSeq needle hay = true := by
  subst h
  induction a with
  | nil => simpa using containsSeq_append_self needle b hne
  | cons c a ih =>
    have h1 : ((c :: a) ++ needle ++ b) = c :: (a ++ needle ++ b) := by simp
    rw [h1]
    simp only [containsSeq]
    rw [ih]
    simp

theorem containsEvalWord_of_append (a : List Char) :
    ∀ (prev : Option Char) (b : List Char),
      (match a.getLast? with
        | none => boundaryBefore prev = true
        | some p => isWordChar p = false) →
      (match b.head? with
        | none => True
        | some c => isWordChar c = false) →
      containsEvalWord prev (a ++ "eval".data ++ b) = true := by
  induction a with
  | nil =>
    intro prev b hleft hright
    simp only [List.getLast?_nil] at hleft
    have hdrop : (('e' :: ('v' :: ('a' :: ('l' :: b)))) : List Char).drop 4
        = b := rfl
    simp only [List.nil_append]
    show containsEvalWord prev ('e' :: 'v' :: 'a' :: 'l' :: b) = true
    rw [containsEvalWord]
    have hb : boundaryAfter b = true := by
      cases b with
      | nil => rfl
      | cons c bs => simpa [boundaryAfter] using hright
    rw [hdrop]
    simp [startsWithSeq, hleft, hb]
  | cons c a ih =>
    intro prev b hleft hright
    simp only [List.cons_append]
    rw [containsEvalWord]
    have tail : containsEvalWord (some c) (a ++ "eval".data ++ b) = true := by
      refine ih (some c) b ?_ hright
      cases ha : a with
      | nil =>
        subst ha
        simp only [List.getLast?_singleton] at hleft
        simp [boundaryBefore, hleft]
      | cons d ds =>
        subst ha
        simpa only [List.getLast?_cons_cons] using hleft
    rw [tail]
    simp

/-- C3: any condition expression containing a blocklisted token is
rejected by `safeEvalBool` (it throws `Unsafe expression` without ever
invoking host evaluation), the condition case therefore computes `false`,
and the next edge the executor follows is exactly
`edgeForCondition(nodeId, false)` — the first outgoing edge whose
`sourceHandle` is `"false"`. -/
theorem conditionUnsafe_false (evalFn : String → Except Unit Bool)
    (edges : List FlowEdge) (nodeId : String) (expr : String)
    (h : ContainsUnsafeToken expr) :
    safeEvalBool evalFn expr = Except.error "Unsafe expression" ∧
    conditionResult evalFn expr = false ∧
    edgeForCondition edges nodeId (conditionResult evalFn expr) =
      edgeForCondition edges nodeId false := by
  have hunsafe : isUnsafeExpr expr = true := by
    rcases h with h | h | h | h | h
    · obtain ⟨a, b, hsplit⟩ := h
      have hany : expr.data.any
          (fun c => c = ';' || c = lbraceChar || c = rbraceChar) = true := by
        rw [List.any_eq_true]
        exact ⟨';', by rw [hsplit]; simp, by simp⟩
      simp [isUnsafeExpr, hany]
    · obtain ⟨a, b, hsplit⟩ := h
      have hany : expr.data.any
          (fun c => c = ';' || c = lbraceChar || c = rbraceChar) = true := by
        rw [List.any_eq_true]
        exact ⟨lbraceChar, by rw [hsplit]; simp, by simp⟩
      simp [isUnsafeExpr, hany]
    · obtain ⟨a, b, hsplit⟩ := h
      have hany : expr.data.any
          (fun c => c = ';' || c = lbraceChar || c = rbraceChar) = true := by
        rw [List.any_eq_true]
        exact ⟨rbraceChar, by rw [hsplit]; simp, by simp⟩
      simp [isUnsafeExpr, hany]
    · obtain ⟨w, hw, a, b, hsplit⟩ := h
      have hne : w.data ≠ [] := by fin_cases hw <;> decide
      have hcs : containsSeq w.data expr.data = true :=
        containsSeq_of_append hsplit hne
      fin_cases hw <;> simp [isUnsafeExpr, hcs]
    · obtain ⟨a, b, hsplit, hleft, hright⟩ := h
      have hev : containsEvalWord none expr.data = true := by
        rw [hsplit]
        refine containsEvalWord_of_append a none b ?_ hright
        cases hl : a.getLast? with
        | none => rfl
        | some p => simpa [hl] using hleft
      simp [isUnsafeExpr, hev]
  have heval : safeEvalBool evalFn expr = Except.error "Unsafe expression" := by
    simp [safeEvalBool, hunsafe]
  have hres : conditionResult evalFn expr = false := by
    simp [conditionResult, heval]
  exact ⟨heval, hres, by rw [hres]⟩

/-- C3, witness: the expression `context.score > 3; x` contains `;`, is
rejected, and evaluates to `false` whatever the host evaluator would
have said. -/
theorem conditionUnsafe_false_witness :
    safeEvalBool (fun _ => Except.ok true) "context.score > 3; x" =
        Except.error "Unsafe expression" ∧
      conditionResult (fun _ => Except.ok true) "context.score > 3; x" =
        false ∧
      edgeForCondition [] "n1"
          (conditionResult (fun _ => Except.ok true)
            "context.score > 3; x") =
        edgeForCondition [] "n1" false :=
  conditionUnsafe_false (fun _ => Except.ok true) [] "n1"
    "context.score > 3; x"
    (Or.inl ⟨"context.score > 3".data, " x".data, by decide⟩)

/-! ## Flow executor: template interpolator (`src/lib/flow-executor.ts`)

`tpl` replaces every match of `/\{\{\s*([\w.[\]0-9]+)\s*\}\}/g` by the
stringified value of `getFromPath({context}, key) ?? getFromPath(context,
key)`, rendering nullish results as the empty string.  `getFromPath`
splits the path on `.` and indexes step by step; contexts are JSON data
deserialized from the store, so property access is modelled over own data
properties (objects by key, arrays by canonical integer key). -/

/-- Is the string the canonical base-10 representation of an array index
(as JavaScript array element access by string key requires: `"0"`, `"7"`,
`"12"`, but not `"00"` or `"01"`)? -/
def parseArrayIndex (key : String) : Option Nat :=
  match key.data with
  | [] => none
  | c :: cs =>
      if (c :: cs).all Char.isDigit ∧ (c = '0' → cs = []) then
        some ((c :: cs).foldl (fun n d => n * 10 + (d.toNat - '0'.toNat)) 0)
      else none

/-- One step of `getFromPath`'s reduce: `undefined` when the accumulator
is nullish or a primitive, otherwise the property `key` of the
accumulator. -/
def getFromPathStep (acc : Js) (key : String) : Js :=
  match acc with
  | .undef => .undef
  | .null => .undef
  | .bool _ => .undef
  | .num _ => .undef
  | .str _ => .undef
  | .obj fields => (Js.lookup fields key).getD .undef
  | .arr elems =>
      match parseArrayIndex key with
      | some i => (elems.getD i Js.undef)
      | none => Js.undef

/-- `path.split(".")` on the character list: split at every `.`, keeping
empty segments (`"a..b"` → `["a", "", "b"]`, `""` → `[""]`). -/
def splitDotChars : List Char → List (List Char)
  | [] => [[]]
  | c :: rest =>
      match splitDotChars rest with
      | [] => [[]]
      | g :: gs => if c = '.' then [] :: g :: gs else (c :: g) :: gs

/-- `path.split(".")`. -/
def splitOnDot (path : String) : List String :=
  (splitDotChars path.data).map String.mk

/-- `getFromPath(obj, path)` from the executor. -/
def getFromPath (obj : Js) (path : String) : Js :=
  (splitOnDot path).foldl getFromPathStep obj

mutual

/-- JavaScript `String(v)` on JSON data: strings unchanged, numbers and
booleans printed, `null`/`undefined` spelled out, arrays joined with `,`
(with nullish elements rendered empty, as `Array.prototype.join` does),
plain objects printed as `[object Object]`. -/
def jsToString : Js → String
  | .undef => "undefined"
  | .null => "null"
  | .bool b => cond b "true" "false"
  | .num n => toString n
  | .str s => s
  | .obj _ => "[object Object]"
  | .arr elems => String.intercalate "," (jsElemStrings elems)

/-- `Array.prototype.join`'s element rendering. -/
def jsElemStrings : List Js → List String
  | [] => []
  | x :: xs =>
      (if x.isNullish then "" else jsToString x) :: jsElemStrings xs

end

/-- The replacement value for one placeholder:
`getFromPath({context}, key) ?? getFromPath(context, key)`, with nullish
results rendered as the empty string. -/
def tplResolve (ctx : Js) (key : String) : String :=
  let v₁ := getFromPath (Js.obj [("context", ctx)]) key
  let v := if v₁.isNullish then getFromPath ctx key else v₁
  if v.isNullish then "" else jsToString v

/-- JavaScript `\s` (the characters relevant to template strings). -/
def isTplWs (c : Char) : Bool :=
  c = ' ' || c = '\t' || c = '\n' || c = '\r' || c = '\x0b' || c = '\x0c'

/-- The regex capture class `[\w.[\]0-9]`. -/
def isTplKeyChar (c : Char) : Bool :=
  isWordChar c || c = '.' || c = '[' || c = ']'

/-- Try to match `/\{\{\s*([\w.[\]0-9]+)\s*\}\}/` at the head of the
list, returning the captured key and the number of consumed characters.
The character classes `\s` and `[\w.[\]0-9]` are disjoint and neither
contains `}`, so the regex engine's greedy backtracking match is forced:
maximal whitespace run, maximal key run, maximal whitespace run, then the
literal braces — which is what this function computes. -/
def matchPlaceholder (l : List Char) : Option (List Char × Nat) :=
  match l with
  | c0 :: c1 :: rest =>
      if c0 = lbraceChar ∧ c1 = lbraceChar then
        let ws1 := rest.takeWhile isTplWs
        let r1 := rest.dropWhile isTplWs
        let key := r1.takeWhile isTplKeyChar
        let r2 := r1.dropWhile isTplKeyChar
        if key = [] then none
        else
          let ws2 := r2.takeWhile isTplWs
          let r3 := r2.dropWhile isTplWs
          match r3 with
          | d0 :: d1 :: _ =>
              if d0 = rbraceChar ∧ d1 = rbraceChar then
                some (key, 2 + ws1.length + key.length + ws2.length + 2)
              else none
          | _ => none
      else none
  | _ => none

theorem matchPlaceholder_pos {l : List Char} {key : List Char} {n : Nat}
    (h : matchPlaceholder l = some (key, n)) : 1 ≤ n := by
  simp only [matchPlaceholder] at h
  repeat' split at h
  all_goals
    first
      | (simp only [Option.some.injEq, Prod.mk.injEq] at h
         omega)
      | simp_all

/-- The global-replace scan of `tpl`: at each position, replace a
placeholder match and continue after it, or emit the character and move
one position right. -/
def tplAux (resolve : String → String) : List Char → List Char
  | [] => []
  | c :: rest =>
      match hm : matchPlaceholder (c :: rest) with
      | some (key, n) =>
          (resolve (String.mk key)).data ++
            tplAux resolve ((c :: rest).drop n)
      | none => c :: tplAux resolve rest
  termination_by l => l.length
  decreasing_by
    all_goals first
      | (have h1 := matchPlaceholder_pos hm
         simp only [List.length_drop, List.length_cons]
         omega)
      | simp

/-- `tpl(s)` from the executor, for a given session context. -/
def tpl (ctx : Js) (s : String) : String :=
  String.mk (tplAux (tplResolve ctx) s.data)

theorem ws_not_key {c : Char} (h : isTplWs c = true) :
    isTplKeyChar c = false := by
  simp only [isTplWs, Bool.or_eq_true, decide_eq_true_eq] at h
  rcases h with ((((h | h) | h) | h) | h) | h <;> subst h <;> decide

theorem key_not_ws {c : Char} (h : isTplKeyChar c = true) :
    isTplWs c = false := by
  cases hw : isTplWs c
  · rfl
  · rw [ws_not_key hw] at h
    exact absurd h (by simp)

theorem takeWhile_append_stop {p : Char → Bool} {a b : List Char}
    (ha : ∀ c ∈ a, p c = true)
    (hb : match b.head? with
      | none => True
      | some c => p c = false) :
    (a ++ b).takeWhile p = a ∧ (a ++ b).dropWhile p = b := by
  induction a with
  | nil =>
    simp only [List.nil_append]
    cases b with
    | nil => simp
    | cons c bs =>
      simp only [List.head?_cons] at hb
      simp [List.takeWhile_cons, List.dropWhile_cons, hb]
  | cons c a ih =>
    have hc : p c = true := ha c (by simp)
    have ha' : ∀ x ∈ a, p x = true := fun x hx => ha x (by simp [hx])
    obtain ⟨h1, h2⟩ := ih ha'
    simp [List.takeWhile_cons, List.dropWhile_cons, hc, h1, h2]

theorem drop_length_add {α : Type} (l₁ l₂ : List α) (m : Nat) :
    (l₁ ++ l₂).drop (l₁.length + m) = l₂.drop m := by
  rw [List.drop_append_eq_append_drop]
  have h1 : l₁.drop (l₁.length + m) = [] :=
    List.drop_eq_nil_of_le (by omega)
  have h2 : l₁.length + m - l₁.length = m := by omega
  rw [h1, h2, List.nil_append]

/-- A well-formed placeholder at the head of the input matches, capturing
the key and consuming through the closing braces. -/
theorem matchPlaceholder_found (ws1 key ws2 post : List Char)
    (hws1 : ∀ c ∈ ws1, isTplWs c = true)
    (hkey : ∀ c ∈ key, isTplKeyChar c = true) (hkeyne : key ≠ [])
    (hws2 : ∀ c ∈ ws2, isTplWs c = true) :
    matchPlaceholder (lbraceChar :: lbraceChar ::
        (ws1 ++ key ++ ws2 ++ (rbraceChar :: rbraceChar :: post))) =
      some (key, 2 + ws1.length + key.length + ws2.length + 2) := by
  have hrest : ws1 ++ key ++ ws2 ++ (rbraceChar :: rbraceChar :: post) =
      ws1 ++ (key ++ (ws2 ++ (rbraceChar :: rbraceChar :: post))) := by
    simp [List.append_assoc]
  have hsplit1 := takeWhile_append_stop (p := isTplWs)
    (a := ws1) (b := key ++ (ws2 ++ (rbraceChar :: rbraceChar :: post)))
    hws1 (by
      cases key with
      | nil => exact absurd rfl hkeyne
      | cons k ks =>
        simp only [List.cons_append, List.head?_cons]
        exact key_not_ws (hkey k (by simp)))
  have hsplit2 := takeWhile_append_stop (p := isTplKeyChar)
    (a := key) (b := ws2 ++ (rbraceChar :: rbraceChar :: post))
    hkey (by
      cases ws2 with
      | nil =>
        simp only [List.nil_append, List.head?_cons]
        decide
      | cons w wsr =>
        simp only [List.cons_append, List.head?_cons]
        exact ws_not_key (hws2 w (by simp)))
  have hsplit3 := takeWhile_append_stop (p := isTplWs)
    (a := ws2) (b := rbraceChar :: rbraceChar :: post)
    hws2 (by simp only [List.head?_cons]; decide)
  simp only [matchPlaceholder, hrest, hsplit1.1, hsplit1.2, hsplit2.1,
    hsplit2.2, hsplit3.1, hsplit3.2, hkeyne, if_false]
  simp [hkeyne]

/-- No placeholder can match at a character other than `{`. -/
theorem matchPlaceholder_none_of_head {c : Char} (hc : c ≠ lbraceChar)
    (t : List Char) : matchPlaceholder (c :: t) = none := by
  cases t with
  | nil => rfl
  | cons d rest => simp [matchPlaceholder, hc]

/-- Text without `{` passes through the scan unchanged. -/
theorem tplAux_no_brace (resolve : String → String) (pre : List Char)
    (hpre : lbraceChar ∉ pre) :
    ∀ rest, tplAux resolve (pre ++ rest) = pre ++ tplAux resolve rest := by
  induction pre with
  | nil => intro rest; simp
  | cons c p ih =>
    intro rest
    have hc : c ≠ lbraceChar := by
      intro h
      exact hpre (by simp [h])
    have hp : lbraceChar ∉ p := fun h => hpre (by simp [h])
    rw [List.cons_append, tplAux, matchPlaceholder_none_of_head hc]
    rw [ih hp rest]
    rfl

/-- One placeholder surrounded by brace-free text is replaced by its
resolved value, and the scan continues after the closing braces. -/
theorem tplAux_step (resolve : String → String)
    (pre ws1 key ws2 post : List Char) (hpre : lbraceChar ∉ pre)
    (hws1 : ∀ c ∈ ws1, isTplWs c = true)
    (hkey : ∀ c ∈ key, isTplKeyChar c = true) (hkeyne : key ≠ [])
    (hws2 : ∀ c ∈ ws2, isTplWs c = true) :
    tplAux resolve (pre ++ lbraceChar :: lbraceChar ::
        (ws1 ++ key ++ ws2 ++ (rbraceChar :: rbraceChar :: post))) =
      pre ++ (resolve (String.mk key)).data ++ tplAux resolve post := by
  have hdrop : (ws1 ++ (key ++ (ws2 ++
      (rbraceChar :: rbraceChar :: post)))).drop
        (2 + ws1.length + key.length + ws2.length) = post := by
    have h2 : 2 + ws1.length + key.length + ws2.length =
        ws1.length + (key.length + (ws2.length + 2)) := by omega
    rw [h2, drop_length_add, drop_length_add, drop_length_add]
    rfl
  rw [tplAux_no_brace resolve pre hpre, tplAux,
    matchPlaceholder_found ws1 key ws2 post hws1 hkey hkeyne hws2]
  simp [hdrop, List.append_assoc]

/-- C7, counterexample.  In an *empty* session context the path
`context` resolves to nothing, so the claim requires `{{context}}` to
render as the empty string; instead the interpolator first consults the
wrapper object `{context: ctx}`, finds the context object itself there,
and stringifies it to `[object Object]`. -/
theorem tpl_claim_counterexample :
    getFromPath (Js.obj []) "context" = Js.undef ∧
      tpl (Js.obj []) "\x7b\x7bcontext\x7d\x7d" = "[object Object]" := by
  refine ⟨rfl, ?_⟩
  have h := tplAux_step (tplResolve (Js.obj [])) [] [] "context".data [] []
    (by decide) (by decide) (by decide) (by decide) (by decide)
  have hnil : tplAux (tplResolve (Js.obj [])) [] = [] := by
    simp [tplAux]
  have hres : tplResolve (Js.obj []) (String.mk "context".data) =
      "[object Object]" := rfl
  show String.mk
      (tplAux (tplResolve (Js.obj [])) "\x7b\x7bcontext\x7d\x7d".data) =
    "[object Object]"
  rw [show "\x7b\x7bcontext\x7d\x7d".data =
      ([] : List Char) ++ lbraceChar :: lbraceChar ::
        (([] : List Char) ++ "context".data ++ [] ++
          (rbraceChar :: rbraceChar :: [])) from by decide]
  rw [h, hnil, hres]
  decide

/-- C7, amended.  For any context and any template of the form
`pre ++ "{{" ++ ws₁ ++ key ++ ws₂ ++ "}}" ++ post` (with `pre` free of
`{`, `key` a non-empty run of `[\w.[\]0-9]` characters, `ws₁`/`ws₂`
whitespace), the interpolator leaves `pre` unchanged, replaces the
placeholder by the value resolved *first against the wrapper object
`{context: ctx}` and then against the context itself*, and continues on
`post`; a placeholder whose path is nullish under both lookups renders
as the empty string, and otherwise the first non-nullish lookup is
stringified. -/
theorem tpl_spec (ctx : Js) (pre ws1 key ws2 post : String)
    (hpre : lbraceChar ∉ pre.data)
    (hws1 : ∀ c ∈ ws1.data, isTplWs c = true)
    (hkey : ∀ c ∈ key.data, isTplKeyChar c = true)
    (hkeyne : key.data ≠ [])
    (hws2 : ∀ c ∈ ws2.data, isTplWs c = true) :
    tpl ctx (pre ++ "\x7b\x7b" ++ ws1 ++ key ++ ws2 ++ "\x7d\x7d" ++ post) =
      pre ++ tplResolve ctx key ++ tpl ctx post ∧
    ((getFromPath (Js.obj [("context", ctx)]) key).isNullish = true →
      (getFromPath ctx key).isNullish = true → tplResolve ctx key = "") ∧
    ((getFromPath (Js.obj [("context", ctx)]) key).isNullish = false →
      tplResolve ctx key =
        jsToString (getFromPath (Js.obj [("context", ctx)]) key)) ∧
    ((getFromPath (Js.obj [("context", ctx)]) key).isNullish = true →
      (getFromPath ctx key).isNullish = false →
      tplResolve ctx key = jsToString (getFromPath ctx key)) := by
  refine ⟨?_, ?_, ?_, ?_⟩
  · have h := tplAux_step (tplResolve ctx) pre.data ws1.data key.data
      ws2.data post.data hpre hws1 hkey hkeyne hws2
    apply String.ext
    simp only [tpl, String.data_append]
    have hshape : pre.data ++ ['\x7b', '\x7b'] ++ ws1.data ++
        key.data ++ ws2.data ++ ['\x7d', '\x7d'] ++ post.data =
        pre.data ++ lbraceChar :: lbraceChar ::
          (ws1.data ++ key.data ++ ws2.data ++
            (rbraceChar :: rbraceChar :: post.data)) := by
      have h1 : ('\x7b' : Char) = lbraceChar := rfl
      have h2 : ('\x7d' : Char) = rbraceChar := rfl
      rw [h1, h2]
      simp [List.append_assoc]
    rw [hshape, h]
  · intro h1 h2
    simp [tplResolve, h1, h2]
  · intro h1
    simp [tplResolve, h1]
  · intro h1 h2
    simp [tplResolve, h1, h2]

/-- C7, witness: with context `{name: "Ada"}`, the template
`"Hello {{ name }}!"` renders as `"Hello Ada!"`. -/
theorem tpl_spec_witness :
    tpl (Js.obj [("name", Js.str "Ada")]) "Hello \x7b\x7b name \x7d\x7d!" =
      "Hello Ada!" := by
  have h := (tpl_spec (Js.obj [("name", Js.str "Ada")]) "Hello " " "
    "name" " " "!" (by decide) (by decide) (by decide) (by decide)
    (by decide)).1
  have e1 : ("Hello " ++ "\x7b\x7b" ++ " " ++ "name" ++ " " ++ "\x7d\x7d"
      ++ "!") = "Hello \x7b\x7b name \x7d\x7d!" := by decide
  rw [e1] at h
  rw [h]
  have e2 : tplResolve (Js.obj [("name", Js.str "Ada")]) "name" = "Ada" := by
    decide
  have e3 : tpl (Js.obj [("name", Js.str "Ada")]) "!" = "!" := by
    have h5 : tplAux (tplResolve (Js.obj [("name", Js.str "Ada")])) ['!'] =
        ['!'] := by
      have h4 := tplAux_no_brace
        (tplResolve (Js.obj [("name", Js.str "Ada")])) ['!'] (by decide) []
      simp only [List.append_nil] at h4
      rw [h4]
      simp [tplAux]
    show String.mk
        (tplAux (tplResolve (Js.obj [("name", Js.str "Ada")])) "!".data) =
      "!"
    rw [show ("!".data : List Char) = ['!'] from rfl, h5]
  rw [e2, e3]
  decide

/-! ## Flow executor: main loop (`src/lib/flow-executor.ts`)

The main loop of `executeFlow` walks the node graph, guarded by a step
counter (`if (steps++ > SAFE_MAX_STEPS)`) and a visited set.  Per-node
side effects (sends, API calls, delays) do not influence which node comes
next except through send failures, which throw and mark the session
`Errored`; send outcomes (including pre-send data-validation throws,
which take the same exception path) and host condition evaluation are
supplied by the environment.  The model returns the ordered list of
node ids whose bodies were executed and how the invocation ended; each
ending encodes the session update the source performs there. -/

/-- `SAFE_MAX_STEPS` from `executeFlow`. -/
def SAFE_MAX_STEPS : Nat := 500

/-- Session status values. -/
inductive SessStatus where
  | Active
  | Paused
  | Completed
  | Errored
  deriving Repr, DecidableEq

/-- What a node's `type` determines about control flow: `condition`
carries its expression, `goto` its target; every other type either
follows the first outgoing edge or ends the walk. -/
inductive NodeKind where
  | trigger
  | message
  | options
  | delay
  | condition (expression : String)
  | api
  | assign
  | media
  | whatsappFlow
  | handoff
  | goto (targetNodeId : String)
  | endNode
  deriving Repr, DecidableEq

/-- A node as the main loop sees it. -/
structure LoopNode where
  id : String
  kind : NodeKind
  deriving Repr, DecidableEq

/-- `nodeById.get` (the first node with the given id). -/
def findNode (nodes : List LoopNode) (id : String) : Option LoopNode :=
  nodes.find? (fun n => n.id = id)

/-- External effects of one invocation: the outcome of the `k`-th send
side effect (`false` throws a `FlowSendMessageError`), and host
evaluation of accepted condition expressions. -/
structure ExecEnv where
  sendOk : Nat → Bool
  condEval : String → Except Unit Bool

/-- How one invocation of the executor ends; each constructor records
the final session update the source performs at that exit. -/
inductive ExecOutcome where
  /-- `steps++ > SAFE_MAX_STEPS`: session persisted `Errored`. -/
  | erroredStepLimit
  /-- `visited.has(currentNode.id)`: session persisted `Errored`. -/
  | erroredRevisit
  /-- next node id not in the graph: session persisted `Errored`. -/
  | erroredMissingNode
  /-- a send threw: session persisted `Errored`, error re-raised. -/
  | erroredSendFailure
  /-- `options`/`handoff`: session persisted `Paused` at this node. -/
  | paused (nodeId : String)
  /-- `end` node or no outgoing edge: session persisted `Completed` with
  `currentNodeId = null`. -/
  | completed
  deriving Repr, DecidableEq

/-- The session status each exit persists. -/
def outcomeStatus : ExecOutcome → SessStatus
  | .erroredStepLimit => .Errored
  | .erroredRevisit => .Errored
  | .erroredMissingNode => .Errored
  | .erroredSendFailure => .Errored
  | .paused _ => .Paused
  | .completed => .Completed

/-- What one node body decides: stop the walk with an outcome, or
continue to an (optional) next node id with an updated send counter. -/
inductive StepDecision where
  | halt (outcome : ExecOutcome)
  | next (nodeId : Option String) (sends : Nat)
  deriving Repr, DecidableEq

/-- The body of the `switch (currentNode.type)` statement plus the
`Determine next if not set explicitly` logic: non-condition nodes with
no explicit next follow the first outgoing edge; `condition` follows
`edgeForCondition` only; `goto` jumps to its target; `options` and
`handoff` pause; `end` completes; send failures halt with an error. -/
def nodeStep (env : ExecEnv) (edges : List FlowEdge) (node : LoopNode)
    (sends : Nat) : StepDecision :=
  match node.kind with
  | .trigger => .next ((chooseFirstEdge edges node.id).map (·.target)) sends
  | .delay => .next ((chooseFirstEdge edges node.id).map (·.target)) sends
  | .api => .next ((chooseFirstEdge edges node.id).map (·.target)) sends
  | .assign => .next ((chooseFirstEdge edges node.id).map (·.target)) sends
  | .message =>
      if env.sendOk sends then
        .next ((chooseFirstEdge edges node.id).map (·.target)) (sends + 1)
      else .halt .erroredSendFailure
  | .media =>
      if env.sendOk sends then
        .next ((chooseFirstEdge edges node.id).map (·.target)) (sends + 1)
      else .halt .erroredSendFailure
  | .whatsappFlow =>
      if env.sendOk sends then
        .next ((chooseFirstEdge edges node.id).map (·.target)) (sends + 1)
      else .halt .erroredSendFailure
  | .options =>
      if env.sendOk sends then .halt (.paused node.id)
      else .halt .erroredSendFailure
  | .handoff => .halt (.paused node.id)
  | .condition expr =>
      .next ((edgeForCondition edges node.id
        (conditionResult env.condEval expr)).map (·.target)) sends
  | .goto target => .next (some target) sends
  | .endNode => .halt .completed

/-- The result of one invocation: the node ids processed, in order, and
the exit. -/
structure LoopResult where
  processed : List String
  outcome : ExecOutcome
  deriving Repr, DecidableEq

/-- The executor's main loop.  `steps` and `visited` carry the guard
state; `sends` counts the send side effects performed so far. -/
def execLoop (env : ExecEnv) (nodes : List LoopNode)
    (edges : List FlowEdge) (current : LoopNode) (visited : List String)
    (steps : Nat) (sends : Nat) : LoopResult :=
  if steps > SAFE_MAX_STEPS then ⟨[], .erroredStepLimit⟩
  else if visited.contains current.id then ⟨[], .erroredRevisit⟩
  else
    match nodeStep env edges current sends with
    | .halt outcome => ⟨[current.id], outcome⟩
    | .next none _ => ⟨[current.id], .completed⟩
    | .next (some nid) sends' =>
        match findNode nodes nid with
        | none => ⟨[current.id], .erroredMissingNode⟩
        | some nxt =>
            let r := execLoop env nodes edges nxt (visited ++ [current.id])
              (steps + 1) sends'
            ⟨current.id :: r.processed, r.outcome⟩
  termination_by SAFE_MAX_STEPS + 1 - steps
  decreasing_by
    simp only [SAFE_MAX_STEPS] at *
    omega

theorem execLoop_inv (env : ExecEnv) (nodes : List LoopNode)
    (edges : List FlowEdge) :
    ∀ (fuel : Nat) (cur : LoopNode) (visited : List String)
      (steps sends : Nat),
      SAFE_MAX_STEPS + 1 - steps ≤ fuel →
      (execLoop env nodes edges cur visited steps sends).processed.length ≤
          SAFE_MAX_STEPS + 1 - steps ∧
        (∀ x ∈ (execLoop env nodes edges cur visited steps
            sends).processed, x ∉ visited) ∧
        (execLoop env nodes edges cur visited steps sends).processed.Nodup := by
  intro fuel
  induction fuel with
  | zero =>
    intro cur visited steps sends hle
    have hg : steps > SAFE_MAX_STEPS := by
      simp only [SAFE_MAX_STEPS] at hle ⊢
      omega
    rw [execLoop]
    simp [hg]
  | succ fuel ih =>
    intro cur visited steps sends hle
    rw [execLoop]
    by_cases hg : steps > SAFE_MAX_STEPS
    · rw [if_pos hg]
      simp
    · rw [if_neg hg]
      have hsteps : steps ≤ SAFE_MAX_STEPS := by omega
      by_cases hv : visited.contains cur.id = true
      · rw [if_pos hv]
        simp
      · have hv' : cur.id ∉ visited := by simpa using hv
        rw [if_neg hv]
        have hone : (1 : Nat) ≤ SAFE_MAX_STEPS + 1 - steps := by
          simp only [SAFE_MAX_STEPS] at *
          omega
        cases hstep : nodeStep env edges cur sends with
        | halt outcome =>
          refine ⟨by simpa using hone, ?_, by simp⟩
          intro x hx
          simp only [List.mem_singleton] at hx
          subst hx
          exact hv'
        | next onid sends' =>
          cases onid with
          | none =>
            refine ⟨by simpa using hone, ?_, by simp⟩
            intro x hx
            simp only [List.mem_singleton] at hx
            subst hx
            exact hv'
          | some nid =>
            cases hfind : findNode nodes nid with
            | none =>
              simp only [hfind]
              refine ⟨by simpa using hone, ?_, by simp⟩
              intro x hx
              simp only [List.mem_singleton] at hx
              subst hx
              exact hv'
            | some nxt =>
              simp only [hfind]
              have hrec := ih nxt (visited ++ [cur.id]) (steps + 1) sends'
                (by simp only [SAFE_MAX_STEPS] at *; omega)
              obtain ⟨hlen, hmem, hnodup⟩ := hrec
              refine ⟨?_, ?_, ?_⟩
              · simp only [List.length_cons]
                simp only [SAFE_MAX_STEPS] at *
                omega
              · intro x hx
                simp only [List.mem_cons] at hx
                rcases hx with hx | hx
                · subst hx
                  exact hv'
                · intro hmemv
                  exact hmem x hx (by simp [hmemv])
              · refine List.nodup_cons.mpr ⟨?_, hnodup⟩
                intro hin
                exact hmem cur.id hin (by simp)

/-- C1, amended.  Over every flow graph and every environment of send
and condition-evaluation outcomes, one invocation of the main loop
executes at most `SAFE_MAX_STEPS + 1 = 501` node bodies — the guard
`steps++ > SAFE_MAX_STEPS` compares the pre-increment counter, so the
501st body still runs and the 502nd entry aborts — never executes the
same node twice, and when either guard trips the invocation stops at
once with the session persisted as `Errored`. -/
theorem execLoop_guards (env : ExecEnv) (nodes : List LoopNode)
    (edges : List FlowEdge) (start : LoopNode) :
    (execLoop env nodes edges start [] 0 0).processed.length ≤
        SAFE_MAX_STEPS + 1 ∧
      (execLoop env nodes edges start [] 0 0).processed.Nodup ∧
      ((execLoop env nodes edges start [] 0 0).outcome =
          ExecOutcome.erroredStepLimit ∨
        (execLoop env nodes edges start [] 0 0).outcome =
          ExecOutcome.erroredRevisit →
        outcomeStatus (execLoop env nodes edges start [] 0 0).outcome =
          SessStatus.Errored) := by
  obtain ⟨hlen, _, hnodup⟩ := execLoop_inv env nodes edges
    (SAFE_MAX_STEPS + 1) start [] 0 0 (by omega)
  refine ⟨by simpa using hlen, hnodup, ?_⟩
  rintro (h | h) <;> rw [h] <;> rfl

/-! A linear chain of 502 distinct `trigger` nodes, used to exhibit the
off-by-one in the step guard: the loop processes 501 of them before the
`steps++ > SAFE_MAX_STEPS` check trips on entry to the 502nd. -/

/-- The id of the `k`-th chain node: `"n"` followed by `k` copies of
`'a'` (all distinct, all non-empty). -/
def chainId (k : Nat) : String := String.mk ('n' :: List.replicate k 'a')

/-- `trigger` nodes `chainId 0 … chainId (n-1)`. -/
def chainNodes : Nat → List LoopNode
  | 0 => []
  | n + 1 => chainNodes n ++ [⟨chainId n, .trigger⟩]

/-- The edge from chain node `k` to chain node `k+1`. -/
def chainEdge (k : Nat) : FlowEdge :=
  ⟨chainId k, chainId k, chainId (k + 1), .undef, .undef⟩

/-- Edges `chainEdge 0 … chainEdge (n-1)`. -/
def chainEdges : Nat → List FlowEdge
  | 0 => []
  | n + 1 => chainEdges n ++ [chainEdge n]

theorem chainId_inj {j k : Nat} (h : chainId j = chainId k) : j = k := by
  have hd := congrArg String.data h
  simp only [chainId] at hd
  have := congrArg List.length hd
  simpa using this

theorem chainId_ne_empty (k : Nat) : chainId k ≠ "" := by
  intro h
  have hd := congrArg String.data h
  simp [chainId] at hd

theorem findNode_chainNodes_ge : ∀ N k, N ≤ k →
    findNode (chainNodes N) (chainId k) = none := by
  intro N
  induction N with
  | zero => intro k _; rfl
  | succ n ih =>
    intro k hk
    simp only [chainNodes, findNode, List.find?_append]
    rw [show (chainNodes n).find? (fun x => decide (x.id = chainId k)) =
        none from ih k (by omega)]
    have hne : chainId n ≠ chainId k := fun h => by
      have := chainId_inj h
      omega
    simp [hne]

theorem findNode_chainNodes_lt : ∀ N k, k < N →
    findNode (chainNodes N) (chainId k) =
      some ⟨chainId k, NodeKind.trigger⟩ := by
  intro N
  induction N with
  | zero => intro k hk; omega
  | succ n ih =>
    intro k hk
    simp only [chainNodes, findNode, List.find?_append]
    by_cases hkn : k < n
    · rw [show (chainNodes n).find? (fun x => decide (x.id = chainId k)) =
          some ⟨chainId k, NodeKind.trigger⟩ from ih k hkn]
      rfl
    · have hkeq : k = n := by omega
      subst hkeq
      rw [show (chainNodes k).find? (fun x => decide (x.id = chainId k)) =
          none from findNode_chainNodes_ge k k (by omega)]
      simp

theorem outgoing_chainEdges : ∀ N k,
    outgoingEdges (chainEdges N) (chainId k) =
      if k < N then [chainEdge k] else [] := by
  intro N
  induction N with
  | zero => intro k; simp [chainEdges, outgoingEdges]
  | succ n ih =>
    intro k
    simp only [chainEdges, outgoingEdges, List.filter_append]
    rw [show List.filter _ (chainEdges n) =
        outgoingEdges (chainEdges n) (chainId k) from rfl, ih k]
    by_cases hkn : k < n
    · have hne : ¬(chainId n = chainId k) := fun h => by
        have := chainId_inj h
        omega
      simp [chainEdge, hkn, chainId_ne_empty, hne, show k < n + 1 by omega]
    · by_cases hkeq : k = n
      · subst hkeq
        simp [chainEdge, hkn, chainId_ne_empty, show k < k + 1 by omega]
      · have hne : ¬(chainId n = chainId k) := fun h => by
          have := chainId_inj h
          omega

        simp [chainEdge, hkn, hne, show ¬(k < n + 1) by omega]

theorem chainId_not_mem_range (k : Nat) :
    chainId k ∉ (List.range k).map chainId := by
  intro h
  obtain ⟨j, hj, hEq⟩ := List.mem_map.mp h
  have := chainId_inj hEq
  have := List.mem_range.mp hj
  omega

theorem chain_run (env : ExecEnv) (sends : Nat) :
    ∀ j k, k + j = SAFE_MAX_STEPS + 1 →
      execLoop env (chainNodes 502) (chainEdges 502)
          ⟨chainId k, NodeKind.trigger⟩ ((List.range k).map chainId) k
          sends =
        ⟨(List.range' k j).map chainId, ExecOutcome.erroredStepLimit⟩ := by
  intro j
  induction j with
  | zero =>
    intro k hk
    rw [execLoop]
    rw [if_pos (show k > SAFE_MAX_STEPS by
      simp only [SAFE_MAX_STEPS] at *
      omega)]
    simp
  | succ j ih =>
    intro k hk
    have hk500 : k ≤ SAFE_MAX_STEPS := by
      simp only [SAFE_MAX_STEPS] at *
      omega
    rw [execLoop]
    rw [if_neg (show ¬k > SAFE_MAX_STEPS by omega)]
    rw [if_neg (show ¬(((List.range k).map chainId).contains
        (⟨chainId k, NodeKind.trigger⟩ : LoopNode).id = true) by
      simpa using chainId_not_mem_range k)]
    have hstep : nodeStep env (chainEdges 502)
        ⟨chainId k, NodeKind.trigger⟩ sends =
        StepDecision.next (some (chainId (k + 1))) sends := by
      simp only [nodeStep, chooseFirstEdge, outgoing_chainEdges]
      rw [if_pos (show k < 502 by
        simp only [SAFE_MAX_STEPS] at hk500
        omega)]
      rfl
    rw [hstep]
    simp only []
    rw [show findNode (chainNodes 502) (chainId (k + 1)) =
        some ⟨chainId (k + 1), NodeKind.trigger⟩ from
      findNode_chainNodes_lt 502 (k + 1) (by
        simp only [SAFE_MAX_STEPS] at hk500
        omega)]
    have hvis : ((List.range k).map chainId) ++ [chainId k] =
        (List.range (k + 1)).map chainId := by
      rw [List.range_succ, List.map_append]
      rfl
    simp only []
    rw [hvis, ih (k + 1) (by omega)]
    rw [List.range'_succ]
    rfl

/-- C1, counterexample.  On a linear flow of 502 distinct nodes, one
invocation of the main loop executes 501 node bodies — strictly more
than the claimed bound of 500 — before the step guard trips and the
session is persisted `Errored`.  (The guard compares the pre-increment
counter: `steps++ > 500` first fails on the 502nd entry.) -/
theorem execLoop_claim_counterexample :
    (execLoop ⟨fun _ => true, fun _ => Except.ok true⟩ (chainNodes 502)
        (chainEdges 502) ⟨chainId 0, NodeKind.trigger⟩ [] 0
        0).processed.length = SAFE_MAX_STEPS + 1 ∧
      SAFE_MAX_STEPS + 1 > SAFE_MAX_STEPS ∧
      (execLoop ⟨fun _ => true, fun _ => Except.ok true⟩ (chainNodes 502)
          (chainEdges 502) ⟨chainId 0, NodeKind.trigger⟩ [] 0 0).outcome =
        ExecOutcome.erroredStepLimit := by
  have h := chain_run ⟨fun _ => true, fun _ => Except.ok true⟩ 0
    (SAFE_MAX_STEPS + 1) 0 (by omega)
  have hnil : ((List.range 0).map chainId : List String) = [] := rfl
  rw [hnil] at h
  rw [h]
  simp

/-! ## Flow-definition sanitizer (`src/lib/flow-schema.ts`)

`sanitizeFlowDefinition` parses an arbitrary input (object, JSON text,
null) through `parseFlowInput` and `FlowDefinitionSchema.parse` (Zod),
then normalizes nodes and edges.  Modelling choices, all visible below:
`JSON.parse` is a host function and is supplied as a parameter
(`jsonParse`), success meaning the string is valid JSON; `deepClone`
(`structuredClone`) is the identity on the value model; Zod `passthrough`
output is modelled by substituting parsed values for the schema keys in
place, preserving the input object's key order; number coercion
(`z.coerce.number().finite().catch(0)` and `ensureCoordinate`) is
modelled over integer-valued numerals. -/

/-- Errors `sanitizeFlowDefinition` can throw: its own
`FlowSanitizationError`, or a `ZodError` from schema validation. -/
inductive SanitizeError where
  | flowSanitization (message : String)
  | zodError
  deriving Repr, DecidableEq

/-- `parseFlowInput`: strings are trimmed and JSON-parsed (empty →
`{}`, invalid JSON → `FlowSanitizationError`); `null`/`undefined`
become `{}` (`input ?? {}`); everything else passes through. -/
def parseFlowInput (jsonParse : String → Option Js) (input : Js) :
    Except SanitizeError Js :=
  match input with
  | .str s =>
      let trimmed := jsTrim s
      if trimmed = "" then .ok (.obj [])
      else
        match jsonParse trimmed with
        | some v => .ok v
        | none =>
            .error (.flowSanitization
              "Flow definition string must be valid JSON.")
  | .undef => .ok (.obj [])
  | .null => .ok (.obj [])
  | v => .ok v

/-- `Number(string)` restricted to optionally-signed decimal integer
literals (the fractional/exponent forms are beyond the integer-valued
number model); whitespace-only coerces to `0`, anything else is `NaN`
(`none`). -/
def jsParseNumber (s : String) : Option Int :=
  let t := jsTrim s
  if t = "" then some 0
  else
    let signAndDigits : Int × List Char :=
      match t.data with
      | '-' :: rest => (-1, rest)
      | '+' :: rest => (1, rest)
      | l => (1, l)
    if signAndDigits.2 ≠ [] ∧ signAndDigits.2.all Char.isDigit then
      some (signAndDigits.1 *
        (signAndDigits.2.foldl
          (fun n c => n * 10 + (c.toNat - '0'.toNat)) (0 : Nat) : Nat))
    else none

/-- JavaScript `Number(v)` (`z.coerce`): `none` is `NaN`/non-finite. -/
def jsToNumber : Js → Option Int
  | .undef => none
  | .null => some 0
  | .bool b => some (cond b 1 0)
  | .num n => some n
  | .str s => jsParseNumber s
  | .arr [] => some 0
  | .arr [x] => jsToNumber x
  | .arr _ => none
  | .obj _ => none

/-- `ensureCoordinate` from `flow-schema.ts`: a finite number stays, any
other value is coerced with fallback `0`. -/
def ensureCoordinate : Js → Int
  | .num n => n
  | v => (jsToNumber v).getD 0

/-- `flowNodeTypes` from `flow-schema.ts`: the 12 allowed node types. -/
def flowNodeTypes : List String :=
  ["trigger", "message", "options", "delay", "condition", "api",
    "assign", "media", "whatsapp_flow", "handoff", "goto", "end"]

/-- Replace the first binding of `key` (leaving any duplicates alone). -/
def replaceFirst (fields : List (String × Js)) (key : String) (v : Js) :
    List (String × Js) :=
  match fields with
  | [] => []
  | (k, w) :: rest =>
      if k = key then (k, v) :: rest
      else (k, w) :: replaceFirst rest key v

/-- Object-spread update `{...fields, key: v}`: overwrite in place when
the key exists, append otherwise. -/
def setField (fields : List (String × Js)) (key : String) (v : Js) :
    List (String × Js) :=
  if (Js.lookup fields key).isSome then replaceFirst fields key v
  else fields ++ [(key, v)]

/-- Zod's parse of the node `position` field
(`z.object({x,y}).partial().optional()` with coerce-finite-catch-0
coordinates): must be an object; present coordinates are coerced with
fallback `0`, absent or undefined ones are omitted. -/
def parsePosition (pv : Js) : Except SanitizeError Js :=
  match pv with
  | .obj pfs =>
      let xout := match Js.lookup pfs "x" with
        | none => []
        | some .undef => []
        | some v => [("x", Js.num ((jsToNumber v).getD 0))]
      let yout := match Js.lookup pfs "y" with
        | none => []
        | some .undef => []
        | some v => [("y", Js.num ((jsToNumber v).getD 0))]
      .ok (.obj (xout ++ yout))
  | _ => .error .zodError

/-- Zod's parse of one node (`FlowNodeSchemaInternal`): a passthrough
object with a non-empty string `id`, a `type` from the enum, an optional
object `position` (re-parsed in place) and free-form `data`. -/
def parseNode (node : Js) : Except SanitizeError (List (String × Js)) :=
  match node with
  | .obj fs =>
      match Js.lookup fs "id" with
      | some (.str id) =>
          if id = "" then .error .zodError
          else
            match Js.lookup fs "type" with
            | some (.str ty) =>
                if ty ∈ flowNodeTypes then
                  match Js.lookup fs "position" with
                  | none => .ok fs
                  | some .undef => .ok fs
                  | some pv =>
                      match parsePosition pv with
                      | .ok pos => .ok (replaceFirst fs "position" pos)
                      | .error e => .error e
                else .error .zodError
            | _ => .error .zodError
      | _ => .error .zodError
  | _ => .error .zodError

/-- Is this value acceptable for an edge handle
(`z.union([z.string(), z.null()]).optional()`)? -/
def isHandleValue : Js → Bool
  | .str _ => true
  | .null => true
  | .undef => true
  | _ => false

/-- Zod's parse of one edge (`FlowEdgeSchemaInternal`): a passthrough
object with non-empty string `id`/`source`/`target` and
string-null-or-absent handles. -/
def parseEdge (edge : Js) : Except SanitizeError (List (String × Js)) :=
  match edge with
  | .obj fs =>
      match Js.lookup fs "id", Js.lookup fs "source",
          Js.lookup fs "target" with
      | some (.str id), some (.str source), some (.str target) =>
          if id = "" ∨ source = "" ∨ target = "" then .error .zodError
          else
            if isHandleValue ((Js.lookup fs "sourceHandle").getD .undef) ∧
                isHandleValue ((Js.lookup fs "targetHandle").getD .undef)
            then .ok fs
            else .error .zodError
      | _, _, _ => .error .zodError
  | _ => .error .zodError

/-- `List.mapM` over `Except`, written out for proof transparency. -/
def mapExcept {ε α β : Type} (f : α → Except ε β) :
    List α → Except ε (List β)
  | [] => .ok []
  | x :: xs =>
      match f x with
      | .error e => .error e
      | .ok y =>
          match mapExcept f xs with
          | .error e => .error e
          | .ok ys => .ok (y :: ys)

/-- `FlowDefinitionSchema.parse`: an object (or `undefined`, which takes
the whole-schema default) whose optional `nodes`/`edges` arrays are
parsed element-wise; unknown top-level keys are stripped. -/
def parseFlowDefinition (v : Js) :
    Except SanitizeError (List (List (String × Js)) ×
      List (List (String × Js))) :=
  match v with
  | .undef => .ok ([], [])
  | .obj fs =>
      let nodesResult := match Js.lookup fs "nodes" with
        | none => Except.ok []
        | some .undef => Except.ok []
        | some (.arr xs) => mapExcept parseNode xs
        | some _ => Except.error SanitizeError.zodError
      match nodesResult with
      | .error e => .error e
      | .ok nodes =>
          let edgesResult := match Js.lookup fs "edges" with
            | none => Except.ok []
            | some .undef => Except.ok []
            | some (.arr xs) => mapExcept parseEdge xs
            | some _ => Except.error SanitizeError.zodError
          match edgesResult with
          | .error e => .error e
          | .ok edges => .ok (nodes, edges)
  | _ => .error .zodError

/-- The node-normalization spread
`{...clone, id: String(clone.id), type, data, position}` (the parsed
`id` is already a string, so `String` is the identity on it). -/
def sanitizeNode (fields : List (String × Js)) : List (String × Js) :=
  let idv := (Js.lookup fields "id").getD .undef
  let tyv := (Js.lookup fields "type").getD .undef
  let datav := (Js.lookup fields "data").getD .undef
  let dataOut := if datav.isPlainObject then datav else Js.obj []
  let posFields := match (Js.lookup fields "position").getD .undef with
    | .obj pfs => pfs
    | _ => []
  let posOut := Js.obj
    [("x", Js.num (ensureCoordinate ((Js.lookup posFields "x").getD .undef))),
      ("y", Js.num (ensureCoordinate ((Js.lookup posFields "y").getD .undef)))]
  setField (setField (setField (setField fields "id" idv) "type" tyv)
    "data" dataOut) "position" posOut

/-- `normalizeHandle`: keep strings and `null`, anything else becomes
`undefined`. -/
def normalizeHandle : Js → Js
  | .str s => .str s
  | .null => .null
  | other => Js.undef

/-- The edge-normalization spread: note that it always *writes* the
handle keys, so an edge without them gains them (with value
`undefined`). -/
def sanitizeEdge (fields : List (String × Js)) : List (String × Js) :=
  let idv := (Js.lookup fields "id").getD .undef
  let sourcev := (Js.lookup fields "source").getD .undef
  let targetv := (Js.lookup fields "target").getD .undef
  let sh := normalizeHandle ((Js.lookup fields "sourceHandle").getD .undef)
  let th := normalizeHandle ((Js.lookup fields "targetHandle").getD .undef)
  setField (setField (setField (setField (setField fields "id" idv)
    "source" sourcev) "target" targetv) "sourceHandle" sh)
    "targetHandle" th

/-- `sanitizeFlowDefinition` from `flow-schema.ts`. -/
def sanitizeFlowDefinition (jsonParse : String → Option Js) (input : Js) :
    Except SanitizeError Js :=
  match parseFlowInput jsonParse input with
  | .error e => .error e
  | .ok parsed =>
      match parseFlowDefinition parsed with
      | .error e => .error e
      | .ok (nodes, edges) =>
          .ok (.obj
            [("nodes", .arr (nodes.map fun fs => Js.obj (sanitizeNode fs))),
              ("edges", .arr (edges.map fun fs => Js.obj (sanitizeEdge fs)))])

/-- `emptyFlowDefinition` from `flow-schema.ts`. -/
def emptyFlowDefinition : Js := .obj [("nodes", .arr []), ("edges", .arr [])]

/-- C10: on string inputs, a blank (empty or whitespace-only) flow
definition sanitizes to the empty definition `{nodes: [], edges: []}`,
and a non-blank string that is not valid JSON makes
`sanitizeFlowDefinition` throw `FlowSanitizationError` with message
`Flow definition string must be valid JSON.` instead of returning a
definition. -/
theorem sanitize_string_inputs (jsonParse : String → Option Js)
    (s : String) :
    (jsTrim s = "" →
      sanitizeFlowDefinition jsonParse (Js.str s) =
        Except.ok emptyFlowDefinition) ∧
    (jsTrim s ≠ "" → jsonParse (jsTrim s) = none →
      sanitizeFlowDefinition jsonParse (Js.str s) =
        Except.error (.flowSanitization
          "Flow definition string must be valid JSON.")) := by
  constructor
  · intro h
    simp [sanitizeFlowDefinition, parseFlowInput, h, parseFlowDefinition,
      Js.lookup, emptyFlowDefinition]
  · intro h1 h2
    simp [sanitizeFlowDefinition, parseFlowInput, h1, h2]

/-- C10, witness: with a JSON parser that rejects everything, the
whitespace string `"   "` sanitizes to the empty definition, and
`"not json"` throws the `FlowSanitizationError`. -/
theorem sanitize_string_inputs_witness :
    sanitizeFlowDefinition (fun _ => none) (Js.str "   ") =
        Except.ok emptyFlowDefinition ∧
      sanitizeFlowDefinition (fun _ => none) (Js.str "not json") =
        Except.error (SanitizeError.flowSanitization
          "Flow definition string must be valid JSON.") :=
  ⟨(sanitize_string_inputs (fun _ => none) "   ").1 (by decide),
    (sanitize_string_inputs (fun _ => none) "not json").2 (by decide) rfl⟩

/-! ### Idempotence of the sanitizer (C6) -/

theorem lookup_cons (k : String) (v : Js) (rest : List (String × Js))
    (key : String) :
    Js.lookup ((k, v) :: rest) key =
      if k = key then some v else Js.lookup rest key := by
  by_cases h : k = key <;> simp [Js.lookup, List.find?_cons, h]

theorem lookup_replaceFirst_other {fs : List (String × Js)}
    {k k' : String} (v : Js) (h : k' ≠ k) :
    Js.lookup (replaceFirst fs k v) k' = Js.lookup fs k' := by
  induction fs with
  | nil => rfl
  | cons f rest ih =>
    obtain ⟨fk, fv⟩ := f
    by_cases hk : fk = k
    · subst hk
      rw [replaceFirst, if_pos rfl, lookup_cons, lookup_cons,
        if_neg (fun hc => h hc.symm), if_neg (fun hc => h hc.symm)]
    · rw [replaceFirst, if_neg hk, lookup_cons, lookup_cons]
      by_cases hk' : fk = k'
      · simp [hk']
      · simp [hk', ih]

theorem replaceFirst_self {fs : List (String × Js)} {k : String} {v : Js}
    (h : Js.lookup fs k = some v) : replaceFirst fs k v = fs := by
  induction fs with
  | nil => rfl
  | cons f rest ih =>
    obtain ⟨fk, fv⟩ := f
    rw [lookup_cons] at h
    by_cases hk : fk = k
    · rw [if_pos hk] at h
      injection h with h
      rw [replaceFirst, if_pos hk, h]
    · rw [if_neg hk] at h
      rw [replaceFirst, if_neg hk, ih h]

theorem lookup_setField_same (fs : List (String × Js)) (k : String)
    (v : Js) : Js.lookup (setField fs k v) k = some v := by
  rw [setField]
  by_cases h : (Js.lookup fs k).isSome
  · rw [if_pos h]
    obtain ⟨w, hw⟩ := Option.isSome_iff_exists.mp h
    clear h
    induction fs with
    | nil => simp [Js.lookup] at hw
    | cons f rest ih =>
      obtain ⟨fk, fv⟩ := f
      rw [lookup_cons] at hw
      by_cases hk : fk = k
      · rw [replaceFirst, if_pos hk, lookup_cons, if_pos hk]
      · rw [if_neg hk] at hw
        rw [replaceFirst, if_neg hk, lookup_cons, if_neg hk, ih hw]
  · rw [if_neg h]
    have hnone : Js.lookup fs k = none := by
      cases hl : Js.lookup fs k
      · rfl
      · rw [hl] at h
        simp at h
    clear h
    induction fs with
    | nil => simp [Js.lookup]
    | cons f rest ih =>
      obtain ⟨fk, fv⟩ := f
      rw [lookup_cons] at hnone
      by_cases hk : fk = k
      · rw [if_pos hk] at hnone
        exact absurd hnone (by simp)
      · rw [if_neg hk] at hnone
        rw [List.cons_append, lookup_cons, if_neg hk, ih hnone]

theorem lookup_append_singleton_other {k k' : String} (v : Js)
    (h : k' ≠ k) (fs : List (String × Js)) :
    Js.lookup (fs ++ [(k, v)]) k' = Js.lookup fs k' := by
  have h2 : k ≠ k' := Ne.symm h
  induction fs with
  | nil => simp [Js.lookup, List.find?, h2]
  | cons f rest ih =>
    obtain ⟨fk, fv⟩ := f
    rw [List.cons_append, lookup_cons, lookup_cons]
    by_cases hk : fk = k'
    · simp [hk]
    · simp only [hk, if_false]
      exact ih

theorem lookup_setField_other (fs : List (String × Js)) {k k' : String}
    (v : Js) (h : k' ≠ k) :
    Js.lookup (setField fs k v) k' = Js.lookup fs k' := by
  rw [setField]
  by_cases hs : (Js.lookup fs k).isSome
  · rw [if_pos hs, lookup_replaceFirst_other v h]
  · rw [if_neg hs, lookup_append_singleton_other v h]

theorem setField_self {fs : List (String × Js)} {k : String} {v : Js}
    (h : Js.lookup fs k = some v) : setField fs k v = fs := by
  rw [setField, if_pos (by simp [h]), replaceFirst_self h]

/-- The shape every sanitized node has: a non-empty string `id`, a
`type` from the 12-type enum, an object `data`, and a `position` object
with numeric `x` and `y`. -/
def WFNodeFields (fs : List (String × Js)) : Prop :=
  (∃ id, Js.lookup fs "id" = some (.str id) ∧ id ≠ "") ∧
  (∃ ty, Js.lookup fs "type" = some (.str ty) ∧ ty ∈ flowNodeTypes) ∧
  (∃ ds, Js.lookup fs "data" = some (.obj ds)) ∧
  (∃ px py, Js.lookup fs "position" =
    some (.obj [("x", Js.num px), ("y", Js.num py)]))

/-- The shape every sanitized edge has: non-empty string
`id`/`source`/`target` and handle keys present with a string, `null`,
or `undefined` value. -/
def WFEdgeFields (fs : List (String × Js)) : Prop :=
  (∃ id, Js.lookup fs "id" = some (.str id) ∧ id ≠ "") ∧
  (∃ s, Js.lookup fs "source" = some (.str s) ∧ s ≠ "") ∧
  (∃ t, Js.lookup fs "target" = some (.str t) ∧ t ≠ "") ∧
  (∃ sh, Js.lookup fs "sourceHandle" = some sh ∧ isHandleValue sh = true) ∧
  (∃ th, Js.lookup fs "targetHandle" = some th ∧ isHandleValue th = true)

theorem parseNode_lookup {n : Js} {fs : List (String × Js)}
    (h : parseNode n = .ok fs) :
    (∃ id, Js.lookup fs "id" = some (.str id) ∧ id ≠ "") ∧
      (∃ ty, Js.lookup fs "type" = some (.str ty) ∧ ty ∈ flowNodeTypes) := by
  unfold parseNode at h
  cases n with
  | obj fs0 =>
    simp only [] at h
    cases hid : Js.lookup fs0 "id" with
    | none => rw [hid] at h; exact absurd h (by simp)
    | some idv =>
      rw [hid] at h
      cases idv with
      | str id =>
        simp only [] at h
        by_cases hide : id = ""
        · rw [if_pos hide] at h
          exact absurd h (by simp)
        · rw [if_neg hide] at h
          cases hty : Js.lookup fs0 "type" with
          | none => rw [hty] at h; exact absurd h (by simp)
          | some tyv =>
            rw [hty] at h
            cases tyv with
            | str ty =>
              simp only [] at h
              by_cases htym : ty ∈ flowNodeTypes
              · rw [if_pos htym] at h
                cases hpos : Js.lookup fs0 "position" with
                | none =>
                  rw [hpos] at h
                  simp only [] at h
                  injection h with h
                  subst h
                  exact ⟨⟨id, hid, hide⟩, ⟨ty, hty, htym⟩⟩
                | some pv =>
                  rw [hpos] at h
                  cases pv with
                  | undef =>
                    simp only [] at h
                    injection h with h
                    subst h
                    exact ⟨⟨id, hid, hide⟩, ⟨ty, hty, htym⟩⟩
                  | obj pfs =>
                    simp only [parsePosition] at h
                    injection h with h
                    subst h
                    refine ⟨⟨id, ?_, hide⟩, ⟨ty, ?_, htym⟩⟩
                    · rw [lookup_replaceFirst_other _ (by decide), hid]
                    · rw [lookup_replaceFirst_other _ (by decide), hty]
                  | null => simp [parsePosition] at h
                  | bool b => simp [parsePosition] at h
                  | num m => simp [parsePosition] at h
                  | str s => simp [parsePosition] at h
                  | arr xs => simp [parsePosition] at h
              · rw [if_neg htym] at h
                exact absurd h (by simp)
            | undef => exact absurd h (by simp)
            | null => exact absurd h (by simp)
            | bool b => exact absurd h (by simp)
            | num m => exact absurd h (by simp)
            | arr xs => exact absurd h (by simp)
            | obj o => exact absurd h (by simp)
      | undef => exact absurd h (by simp)
      | null => exact absurd h (by simp)
      | bool b => exact absurd h (by simp)
      | num m => exact absurd h (by simp)
      | arr xs => exact absurd h (by simp)
      | obj o => exact absurd h (by simp)
  | undef => exact absurd h (by simp)
  | null => exact absurd h (by simp)
  | bool b => exact absurd h (by simp)
  | num m => exact absurd h (by simp)
  | str s => exact absurd h (by simp)
  | arr xs => exact absurd h (by simp)

theorem sanitizeNode_wf {fs : List (String × Js)} {id ty : String}
    (hid : Js.lookup fs "id" = some (.str id)) (hide : id ≠ "")
    (hty : Js.lookup fs "type" = some (.str ty))
    (htym : ty ∈ flowNodeTypes) : WFNodeFields (sanitizeNode fs) := by
  simp only [sanitizeNode]
  refine ⟨⟨id, ?_, hide⟩, ⟨ty, ?_, htym⟩, ?_, ?_⟩
  · rw [lookup_setField_other _ _ (by decide),
      lookup_setField_other _ _ (by decide),
      lookup_setField_other _ _ (by decide), lookup_setField_same, hid]
    rfl
  · rw [lookup_setField_other _ _ (by decide),
      lookup_setField_other _ _ (by decide), lookup_setField_same, hty]
    rfl
  · rw [lookup_setField_other _ _ (by decide), lookup_setField_same]
    rcases hdd : (Js.lookup fs "data").getD .undef with
      _ | _ | b | m | s | xs | ds <;> simp [Js.isPlainObject]
  · rw [lookup_setField_same]
    exact ⟨_, _, rfl⟩

theorem parseNode_of_wf {fs : List (String × Js)} (h : WFNodeFields fs) :
    parseNode (.obj fs) = .ok fs := by
  obtain ⟨⟨id, hid, hide⟩, ⟨ty, hty, htym⟩, ⟨ds, hds⟩, ⟨px, py, hpos⟩⟩ := h
  unfold parseNode
  simp only [hid, hty, hpos, if_neg hide, if_pos htym]
  have hpp : parsePosition (.obj [("x", Js.num px), ("y", Js.num py)]) =
      .ok (.obj [("x", Js.num px), ("y", Js.num py)]) := by
    simp [parsePosition, Js.lookup, List.find?, jsToNumber]
  rw [hpp]
  simp only []
  rw [replaceFirst_self hpos]

theorem sanitizeNode_of_wf {fs : List (String × Js)}
    (h : WFNodeFields fs) : sanitizeNode fs = fs := by
  obtain ⟨⟨id, hid, hide⟩, ⟨ty, hty, htym⟩, ⟨ds, hds⟩, ⟨px, py, hpos⟩⟩ := h
  simp only [sanitizeNode, hid, hty, hds, hpos, Option.getD_some]
  have hdata : Js.isPlainObject (.obj ds) = true := rfl
  rw [if_pos hdata]
  have hx : Js.lookup [("x", Js.num px), ("y", Js.num py)] "x" =
      some (Js.num px) := by simp [Js.lookup, List.find?]
  have hy : Js.lookup [("x", Js.num px), ("y", Js.num py)] "y" =
      some (Js.num py) := by simp [Js.lookup, List.find?]
  simp only [hx, hy, Option.getD_some, ensureCoordinate]
  rw [setField_self hid, setField_self hty, setField_self hds,
    setField_self hpos]

theorem normalizeHandle_handleValue (v : Js) :
    isHandleValue (normalizeHandle v) = true := by
  cases v <;> rfl

theorem normalizeHandle_of_handleValue {v : Js}
    (h : isHandleValue v = true) : normalizeHandle v = v := by
  cases v <;> first | rfl | simp [isHandleValue] at h

theorem parseEdge_lookups {e : Js} {fs : List (String × Js)}
    (h : parseEdge e = .ok fs) :
    (∃ id, Js.lookup fs "id" = some (.str id) ∧ id ≠ "") ∧
      (∃ s, Js.lookup fs "source" = some (.str s) ∧ s ≠ "") ∧
      (∃ t, Js.lookup fs "target" = some (.str t) ∧ t ≠ "") := by
  unfold parseEdge at h
  cases e with
  | obj fs0 =>
    simp only [] at h
    cases hid : Js.lookup fs0 "id" with
    | none => rw [hid] at h; exact absurd h (by simp)
    | some idv =>
      rw [hid] at h
      cases idv with
      | str id =>
        cases hsrc : Js.lookup fs0 "source" with
        | none => rw [hsrc] at h; exact absurd h (by simp)
        | some srcv =>
          rw [hsrc] at h
          cases srcv with
          | str src =>
            cases htgt : Js.lookup fs0 "target" with
            | none => rw [htgt] at h; exact absurd h (by simp)
            | some tgtv =>
              rw [htgt] at h
              cases tgtv with
              | str tgt =>
                simp only [] at h
                by_cases hemp : id = "" ∨ src = "" ∨ tgt = ""
                · rw [if_pos hemp] at h
                  exact absurd h (by simp)
                · rw [if_neg hemp] at h
                  push_neg at hemp
                  obtain ⟨h1, h2, h3⟩ := hemp
                  split_ifs at h with hh
                  injection h with h
                  subst h
                  exact ⟨⟨id, hid, h1⟩, ⟨src, hsrc, h2⟩, ⟨tgt, htgt, h3⟩⟩
              | undef => exact absurd h (by simp)
              | null => exact absurd h (by simp)
              | bool b => exact absurd h (by simp)
              | num m => exact absurd h (by simp)
              | arr xs => exact absurd h (by simp)
              | obj o => exact absurd h (by simp)
          | undef => exact absurd h (by simp)
          | null => exact absurd h (by simp)
          | bool b => exact absurd h (by simp)
          | num m => exact absurd h (by simp)
          | arr xs => exact absurd h (by simp)
          | obj o => exact absurd h (by simp)
      | undef => exact absurd h (by simp)
      | null => exact absurd h (by simp)
      | bool b => exact absurd h (by simp)
      | num m => exact absurd h (by simp)
      | arr xs => exact absurd h (by simp)
      | obj o => exact absurd h (by simp)
  | undef => exact absurd h (by simp)
  | null => exact absurd h (by simp)
  | bool b => exact absurd h (by simp)
  | num m => exact absurd h (by simp)
  | str s => exact absurd h (by simp)
  | arr xs => exact absurd h (by simp)

theorem sanitizeEdge_wf {fs : List (String × Js)} {id src tgt : String}
    (hid : Js.lookup fs "id" = some (.str id)) (hide : id ≠ "")
    (hsrc : Js.lookup fs "source" = some (.str src)) (hsrce : src ≠ "")
    (htgt : Js.lookup fs "target" = some (.str tgt)) (htgte : tgt ≠ "") :
    WFEdgeFields (sanitizeEdge fs) := by
  simp only [sanitizeEdge]
  refine ⟨⟨id, ?_, hide⟩, ⟨src, ?_, hsrce⟩, ⟨tgt, ?_, htgte⟩, ?_, ?_⟩
  · rw [lookup_setField_other _ _ (by decide),
      lookup_setField_other _ _ (by decide),
      lookup_setField_other _ _ (by decide),
      lookup_setField_other _ _ (by decide), lookup_setField_same, hid]
    rfl
  · rw [lookup_setField_other _ _ (by decide),
      lookup_setField_other _ _ (by decide),
      lookup_setField_other _ _ (by decide), lookup_setField_same, hsrc]
    rfl
  · rw [lookup_setField_other _ _ (by decide),
      lookup_setField_other _ _ (by decide), lookup_setField_same, htgt]
    rfl
  · rw [lookup_setField_other _ _ (by decide), lookup_setField_same]
    exact ⟨_, rfl, normalizeHandle_handleValue _⟩
  · rw [lookup_setField_same]
    exact ⟨_, rfl, normalizeHandle_handleValue _⟩

theorem parseEdge_of_wf {fs : List (String × Js)} (h : WFEdgeFields fs) :
    parseEdge (.obj fs) = .ok fs := by
  obtain ⟨⟨id, hid, hide⟩, ⟨src, hsrc, hsrce⟩, ⟨tgt, htgt, htgte⟩,
    ⟨sh, hsh, hshv⟩, ⟨th, hth, hthv⟩⟩ := h
  unfold parseEdge
  simp only [hid, hsrc, htgt, hsh, hth, Option.getD_some]
  rw [if_neg (by simp [hide, hsrce, htgte]), if_pos ⟨hshv, hthv⟩]

theorem sanitizeEdge_of_wf {fs : List (String × Js)}
    (h : WFEdgeFields fs) : sanitizeEdge fs = fs := by
  obtain ⟨⟨id, hid, hide⟩, ⟨src, hsrc, hsrce⟩, ⟨tgt, htgt, htgte⟩,
    ⟨sh, hsh, hshv⟩, ⟨th, hth, hthv⟩⟩ := h
  simp only [sanitizeEdge, hid, hsrc, htgt, hsh, hth, Option.getD_some,
    normalizeHandle_of_handleValue hshv, normalizeHandle_of_handleValue hthv]
  rw [setField_self hid, setField_self hsrc, setField_self htgt,
    setField_self hsh, setField_self hth]

theorem mapExcept_ok_provenance {ε α β : Type} {f : α → Except ε β} :
    ∀ {xs : List α} {ys : List β}, mapExcept f xs = .ok ys →
      ∀ y ∈ ys, ∃ x, f x = .ok y := by
  intro xs
  induction xs with
  | nil =>
    intro ys h y hy
    unfold mapExcept at h
    injection h with h
    subst h
    simp at hy
  | cons x xs ih =>
    intro ys h y hy
    unfold mapExcept at h
    cases hfx : f x with
    | error e => rw [hfx] at h; exact absurd h (by simp)
    | ok b =>
      rw [hfx] at h
      cases hrest : mapExcept f xs with
      | error e => rw [hrest] at h; exact absurd h (by simp)
      | ok bs =>
        rw [hrest] at h
        simp only [] at h
        injection h with h
        subst h
        rcases List.mem_cons.mp hy with hy | hy
        · exact ⟨x, hy ▸ hfx⟩
        · exact ih hrest y hy

theorem mapExcept_map_ok {ε α β γ : Type} {f : α → Except ε β}
    {g : γ → α} {h' : γ → β} :
    ∀ xs : List γ, (∀ x ∈ xs, f (g x) = .ok (h' x)) →
      mapExcept f (xs.map g) = .ok (xs.map h') := by
  intro xs
  induction xs with
  | nil => intro _; rfl
  | cons x xs ih =>
    intro hall
    rw [List.map_cons, List.map_cons]
    unfold mapExcept
    rw [hall x (by simp), ih (fun z hz => hall z (by simp [hz]))]

theorem parseFlowDefinition_provenance {v : Js}
    {nodes edges : List (List (String × Js))}
    (h : parseFlowDefinition v = .ok (nodes, edges)) :
    (∀ fs ∈ nodes, ∃ n, parseNode n = .ok fs) ∧
      (∀ fs ∈ edges, ∃ e, parseEdge e = .ok fs) := by
  unfold parseFlowDefinition at h
  cases v with
  | undef =>
    injection h with h
    injection h with h1 h2
    subst h1; subst h2
    exact ⟨by simp, by simp⟩
  | obj fs0 =>
    simp only [] at h
    have hnodes : ∀ r, (match Js.lookup fs0 "nodes" with
        | none => Except.ok []
        | some .undef => Except.ok []
        | some (.arr xs) => mapExcept parseNode xs
        | some _ => Except.error SanitizeError.zodError) = .ok r →
        ∀ fs ∈ r, ∃ n, parseNode n = .ok fs := by
      intro r hr fs hfs
      cases hl : Js.lookup fs0 "nodes" with
      | none =>
        rw [hl] at hr
        injection hr with hr
        subst hr
        simp at hfs
      | some w =>
        rw [hl] at hr
        cases w with
        | undef =>
          injection hr with hr
          subst hr
          simp at hfs
        | arr xs => exact mapExcept_ok_provenance hr fs hfs
        | null => exact absurd hr (by simp)
        | bool b => exact absurd hr (by simp)
        | num m => exact absurd hr (by simp)
        | str s => exact absurd hr (by simp)
        | obj o => exact absurd hr (by simp)
    have hedges : ∀ r, (match Js.lookup fs0 "edges" with
        | none => Except.ok []
        | some .undef => Except.ok []
        | some (.arr xs) => mapExcept parseEdge xs
        | some _ => Except.error SanitizeError.zodError) = .ok r →
        ∀ fs ∈ r, ∃ e, parseEdge e = .ok fs := by
      intro r hr fs hfs
      cases hl : Js.lookup fs0 "edges" with
      | none =>
        rw [hl] at hr
        injection hr with hr
        subst hr
        simp at hfs
      | some w =>
        rw [hl] at hr
        cases w with
        | undef =>
          injection hr with hr
          subst hr
          simp at hfs
        | arr xs => exact mapExcept_ok_provenance hr fs hfs
        | null => exact absurd hr (by simp)
        | bool b => exact absurd hr (by simp)
        | num m => exact absurd hr (by simp)
        | str s => exact absurd hr (by simp)
        | obj o => exact absurd hr (by simp)
    cases hn : (match Js.lookup fs0 "nodes" with
        | none => Except.ok []
        | some .undef => Except.ok []
        | some (.arr xs) => mapExcept parseNode xs
        | some _ => Except.error SanitizeError.zodError) with
    | error e => rw [hn] at h; exact absurd h (by simp)
    | ok rn =>
      rw [hn] at h
      simp only [] at h
      cases he : (match Js.lookup fs0 "edges" with
          | none => Except.ok []
          | some .undef => Except.ok []
          | some (.arr xs) => mapExcept parseEdge xs
          | some _ => Except.error SanitizeError.zodError) with
      | error e => rw [he] at h; exact absurd h (by simp)
      | ok re =>
        rw [he] at h
        simp only [] at h
        injection h with h
        injection h with h1 h2
        subst h1; subst h2
        exact ⟨hnodes _ hn, hedges _ he⟩
  | null => exact absurd h (by simp)
  | bool b => exact absurd h (by simp)
  | num m => exact absurd h (by simp)
  | str s => exact absurd h (by simp)
  | arr xs => exact absurd h (by simp)

/-- C6: flow-definition sanitization is idempotent — whenever
`sanitizeFlowDefinition` succeeds, feeding its output back in returns
the very same value — and every node of the output carries a `type`
from the 12 allowed node types, a numeric (hence finite; see
`WFNodeFields`) `position.x`/`position.y` pair, and an object-valued
`data` field. -/
theorem sanitizeFlowDefinition_idem (jsonParse : String → Option Js)
    (x y : Js) (h : sanitizeFlowDefinition jsonParse x = .ok y) :
    sanitizeFlowDefinition jsonParse y = .ok y ∧
      ∃ ns es, y = Js.obj [("nodes", .arr ns), ("edges", .arr es)] ∧
        (∀ node ∈ ns, ∃ fs, node = Js.obj fs ∧ WFNodeFields fs) ∧
        (∀ edge ∈ es, ∃ fs, edge = Js.obj fs ∧ WFEdgeFields fs) := by
  unfold sanitizeFlowDefinition at h
  cases hpi : parseFlowInput jsonParse x with
  | error e => rw [hpi] at h; exact absurd h (by simp)
  | ok parsed =>
    rw [hpi] at h
    simp only [] at h
    cases hpd : parseFlowDefinition parsed with
    | error e => rw [hpd] at h; exact absurd h (by simp)
    | ok pr =>
      obtain ⟨nodes, edges⟩ := pr
      rw [hpd] at h
      simp only [] at h
      injection h with h
      subst h
      obtain ⟨hpn, hpe⟩ := parseFlowDefinition_provenance hpd
      have hwfN : ∀ fs ∈ nodes, WFNodeFields (sanitizeNode fs) := by
        intro fs hfs
        obtain ⟨n, hn⟩ := hpn fs hfs
        obtain ⟨⟨id, hid, hide⟩, ⟨ty, hty, htym⟩⟩ := parseNode_lookup hn
        exact sanitizeNode_wf hid hide hty htym
      have hwfE : ∀ fs ∈ edges, WFEdgeFields (sanitizeEdge fs) := by
        intro fs hfs
        obtain ⟨e, he⟩ := hpe fs hfs
        obtain ⟨⟨id, hid, hide⟩, ⟨src, hsrc, hsrce⟩, ⟨tgt, htgt, htgte⟩⟩ :=
          parseEdge_lookups he
        exact sanitizeEdge_wf hid hide hsrc hsrce htgt htgte
      constructor
      · have hlookupN : Js.lookup
            [("nodes", Js.arr (nodes.map fun fs => Js.obj (sanitizeNode fs))),
              ("edges", Js.arr (edges.map fun fs => Js.obj (sanitizeEdge fs)))]
            "nodes" =
            some (Js.arr (nodes.map fun fs => Js.obj (sanitizeNode fs))) := by
          simp [Js.lookup, List.find?]
        have hlookupE : Js.lookup
            [("nodes", Js.arr (nodes.map fun fs => Js.obj (sanitizeNode fs))),
              ("edges", Js.arr (edges.map fun fs => Js.obj (sanitizeEdge fs)))]
            "edges" =
            some (Js.arr (edges.map fun fs => Js.obj (sanitizeEdge fs))) := by
          simp [Js.lookup, List.find?]
        have hpd2 : parseFlowDefinition (Js.obj
            [("nodes", Js.arr (nodes.map fun fs => Js.obj (sanitizeNode fs))),
              ("edges", Js.arr (edges.map fun fs => Js.obj (sanitizeEdge fs)))])
            = .ok (nodes.map sanitizeNode, edges.map sanitizeEdge) := by
          unfold parseFlowDefinition
          simp only [hlookupN, hlookupE]
          rw [mapExcept_map_ok nodes
            (fun fs hfs => parseNode_of_wf (hwfN fs hfs))]
          simp only []
          rw [mapExcept_map_ok edges
            (fun fs hfs => parseEdge_of_wf (hwfE fs hfs))]
        have hmapN : (nodes.map sanitizeNode).map
            (fun fs => Js.obj (sanitizeNode fs)) =
            nodes.map fun fs => Js.obj (sanitizeNode fs) := by
          rw [List.map_map]
          refine List.map_congr_left ?_
          intro fs hfs
          show Js.obj (sanitizeNode (sanitizeNode fs)) =
            Js.obj (sanitizeNode fs)
          rw [sanitizeNode_of_wf (hwfN fs hfs)]
        have hmapE : (edges.map sanitizeEdge).map
            (fun fs => Js.obj (sanitizeEdge fs)) =
            edges.map fun fs => Js.obj (sanitizeEdge fs) := by
          rw [List.map_map]
          refine List.map_congr_left ?_
          intro fs hfs
          show Js.obj (sanitizeEdge (sanitizeEdge fs)) =
            Js.obj (sanitizeEdge fs)
          rw [sanitizeEdge_of_wf (hwfE fs hfs)]
        unfold sanitizeFlowDefinition
        simp only [parseFlowInput, hpd2, hmapN, hmapE]
      · refine ⟨nodes.map fun fs => Js.obj (sanitizeNode fs),
          edges.map fun fs => Js.obj (sanitizeEdge fs), rfl, ?_, ?_⟩
        · intro node hnode
          obtain ⟨fs, hfs, hfseq⟩ := List.mem_map.mp hnode
          exact ⟨sanitizeNode fs, hfseq.symm, hwfN fs hfs⟩
        · intro edge hedge
          obtain ⟨fs, hfs, hfseq⟩ := List.mem_map.mp hedge
          exact ⟨sanitizeEdge fs, hfseq.symm, hwfE fs hfs⟩

/-- C6, witness: the empty definition is a fixed point — sanitizing
`{}` yields `{nodes: [], edges: []}`, and sanitizing that again returns
it unchanged. -/
theorem sanitizeFlowDefinition_idem_witness :
    sanitizeFlowDefinition (fun _ => none) emptyFlowDefinition =
      Except.ok emptyFlowDefinition :=
  (sanitizeFlowDefinition_idem (fun _ => none) (Js.obj [])
    emptyFlowDefinition rfl).1

end Chatbots
